import Mathlib

/-!
Verification development for the Hayashi PDF reader (src/hayashi.py).

The Python source is shallowly embedded below:
* `LRUCache`            — the `LRUCache` class (lines 20-28);
* `DocModel.build_simple` / `DocModel.build_structured`
                        — the two extraction strategies (lines 44-92);
* `render_page`         — `DocModel.render_page` (lines 94-120), with the
                          external decoding library (PyMuPDF / Qt) modelled
                          as oracle functions carried by the document handle;
* `render_all_pages` / `render_all_step` — the non-blocking "render all"
                          scheduler of `PdfView` (lines 274-296);
* `render_visible_lite` — `PdfView.render_visible_lite` (lines 248-260).

Python strings are modelled as `List Char`; Python `str.strip()` /
`.rstrip()` become `pyStrip` / `pyRstrip`; `s[a:b]` slicing becomes
`pySlice`.  `collections.OrderedDict` is modelled as an association list in
insertion order (head = least recently used), with the uniqueness of keys
maintained by construction.
-/

/-- Whitespace as stripped by Python `str.strip()` (the ASCII part; the
    claims never depend on non-ASCII whitespace). -/
def isPyWs (c : Char) : Bool :=
  c = ' ' || c = '\t' || c = '\n' || c = '\r' || c = Char.ofNat 11 || c = Char.ofNat 12

/-- Python `s.rstrip()`: remove trailing whitespace. -/
def pyRstrip (l : List Char) : List Char :=
  (l.reverse.dropWhile isPyWs).reverse

/-- Python `s.strip()`: remove leading and trailing whitespace. -/
def pyStrip (l : List Char) : List Char :=
  pyRstrip (l.dropWhile isPyWs)

/-- Python slicing `s[a:b]` for `0 ≤ a ≤ b` (as used with offset ranges):
    out-of-range indices are truncated, never an error. -/
def pySlice (l : List Char) (a b : Nat) : List Char :=
  (l.drop a).take (b - a)

theorem pyRstrip_append_ws (l : List Char) :
    ∃ t, l = pyRstrip l ++ t ∧ ∀ c ∈ t, isPyWs c := by
  refine ⟨(l.reverse.takeWhile isPyWs).reverse, ?_, ?_⟩
  · calc l = l.reverse.reverse := (List.reverse_reverse l).symm
    _ = (l.reverse.takeWhile isPyWs ++ l.reverse.dropWhile isPyWs).reverse := by
        rw [List.takeWhile_append_dropWhile]
    _ = pyRstrip l ++ (l.reverse.takeWhile isPyWs).reverse := by
        rw [List.reverse_append]; rfl
  · intro c hc
    exact List.mem_takeWhile_imp (List.mem_reverse.mp hc)

theorem take_length_of_append {α : Type} {x t l : List α} (hl : l = x ++ t) :
    l.take x.length = x := by
  subst hl; exact List.take_left x t

/-- The trimmed buffer is the length-`(pyRstrip l).length` prefix of the
    untrimmed buffer. -/
theorem take_pyRstrip_length (l : List Char) :
    l.take (pyRstrip l).length = pyRstrip l := by
  obtain ⟨t, hl, -⟩ := pyRstrip_append_ws l
  exact take_length_of_append hl

theorem pyRstrip_length_le (l : List Char) :
    (pyRstrip l).length ≤ l.length := by
  obtain ⟨t, hl, -⟩ := pyRstrip_append_ws l
  conv_rhs => rw [hl]
  simp

/-! ## LRUCache (src/hayashi.py lines 20-28)

`self.d` is an `OrderedDict`; we model it as a list of key/value pairs in
insertion order, head = least-recently-used.  `pop(k)` on a dict whose keys
are unique is the same as filtering out the key, which is how we write it.
-/

/-- `k in self.d` / `self.d[k]` lookup on the association list. -/
def assocGet {α β : Type} [DecidableEq α] : List (α × β) → α → Option β
  | [], _ => none
  | (a, b) :: rest, k => if a = k then some b else assocGet rest k

structure LRUCache (α β : Type) where
  max : Nat
  d : List (α × β)

/-- `while len(self.d)>self.max: self.d.popitem(last=False)` — repeatedly
    drop the least-recently-used (front) entry. -/
def evictLoop {α β : Type} (max : Nat) (d : List (α × β)) : List (α × β) :=
  if _h : max < d.length then evictLoop max d.tail else d
termination_by d.length
decreasing_by
  simp only [List.length_tail]
  omega

/-- `LRUCache.get`: on a hit, pop the entry and re-insert it at the
    most-recently-used (back) position; on a miss return `None` untouched. -/
def LRUCache.get {α β : Type} [DecidableEq α] (c : LRUCache α β) (k : α) :
    Option β × LRUCache α β :=
  match assocGet c.d k with
  | some v => (some v, ⟨c.max, (c.d.filter fun p => decide (p.1 ≠ k)) ++ [(k, v)]⟩)
  | none => (none, c)

/-- `LRUCache.put`: pop the key if present, insert at the back, then evict
    from the front while over capacity. -/
def LRUCache.put {α β : Type} [DecidableEq α] (c : LRUCache α β) (k : α) (v : β) :
    LRUCache α β :=
  ⟨c.max, evictLoop c.max ((c.d.filter fun p => decide (p.1 ≠ k)) ++ [(k, v)])⟩

/-- A client-visible operation on the cache. -/
inductive CacheOp (α β : Type) where
  | get (k : α)
  | put (k : α) (v : β)

/-- Run a sequence of cache operations. -/
def runOps {α β : Type} [DecidableEq α] (c : LRUCache α β) : List (CacheOp α β) → LRUCache α β
  | [] => c
  | .get k :: rest => runOps (c.get k).2 rest
  | .put k v :: rest => runOps (c.put k v) rest

theorem evictLoop_eq_drop {α β : Type} (max : Nat) (d : List (α × β)) :
    evictLoop max d = d.drop (d.length - max) := by
  generalize hn : d.length = n
  induction n using Nat.strong_induction_on generalizing d with
  | _ n ih =>
    subst hn
    rw [evictLoop]
    by_cases h : max < d.length
    · simp only [h, dif_pos]
      cases d with
      | nil => simp at h
      | cons a l =>
        simp only [List.tail_cons]
        rw [ih l.length (by simp) l rfl]
        simp only [List.length_cons]
        have h1 : l.length + 1 - max = (l.length - max) + 1 := by
          simp at h; omega
        rw [h1, List.drop_succ_cons]
    · simp only [h, dif_neg, not_false_iff]
      have : d.length - max = 0 := by omega
      simp [this]

theorem cacheGet_fst {α β : Type} [DecidableEq α] (c : LRUCache α β) (k : α) :
    (c.get k).1 = assocGet c.d k := by
  unfold LRUCache.get
  rcases h : assocGet c.d k with - | v <;> simp [h]

theorem assocGet_eq_none {α β : Type} [DecidableEq α] {d : List (α × β)} {k : α}
    (h : ∀ p ∈ d, p.1 ≠ k) : assocGet d k = none := by
  induction d with
  | nil => rfl
  | cons p rest ih =>
    have hp : p.1 ≠ k := h p (by simp)
    simp only [assocGet, if_neg hp]
    exact ih fun q hq => h q (by simp [hq])

theorem assocGet_mem {α β : Type} [DecidableEq α] {d : List (α × β)} {k : α} {v : β}
    (h : assocGet d k = some v) : (k, v) ∈ d := by
  induction d with
  | nil => simp [assocGet] at h
  | cons p rest ih =>
    by_cases hp : p.1 = k
    · simp only [assocGet, if_pos hp] at h
      obtain ⟨a, b⟩ := p
      obtain rfl : a = k := hp
      obtain rfl : b = v := by injection h
      exact List.mem_cons_self _ _
    · simp only [assocGet, if_neg hp] at h
      exact List.mem_cons_of_mem _ (ih h)

theorem assocGet_of_mem {α β : Type} [DecidableEq α] {d : List (α × β)} {k : α} {v : β}
    (hnd : (d.map Prod.fst).Nodup) (hm : (k, v) ∈ d) : assocGet d k = some v := by
  induction d with
  | nil => simp at hm
  | cons p rest ih =>
    rcases List.mem_cons.mp hm with heq | hmem
    · subst heq
      simp [assocGet]
    · have hkrest : k ∈ rest.map Prod.fst := by
        exact List.mem_map.mpr ⟨(k, v), hmem, rfl⟩
      have hp : p.1 ≠ k := by
        intro hc
        rw [List.map_cons, List.nodup_cons] at hnd
        exact hnd.1 (hc ▸ hkrest)
      simp only [assocGet, if_neg hp]
      exact ih (by rw [List.map_cons, List.nodup_cons] at hnd; exact hnd.2) hmem

theorem assocGet_append_last {α β : Type} [DecidableEq α] {d : List (α × β)} {k : α} (v : β)
    (h : ∀ p ∈ d, p.1 ≠ k) : assocGet (d ++ [(k, v)]) k = some v := by
  induction d with
  | nil => simp [assocGet]
  | cons p rest ih =>
    have hp : p.1 ≠ k := h p (by simp)
    simp only [List.cons_append, assocGet, if_neg hp]
    exact ih fun q hq => h q (by simp [hq])

/-- `put` always leaves at most `max` entries (the eviction loop). -/
theorem put_length_le {α β : Type} [DecidableEq α] (c : LRUCache α β) (k : α) (v : β) :
    (c.put k v).d.length ≤ c.max := by
  unfold LRUCache.put
  rw [evictLoop_eq_drop]
  simp only [List.length_drop]
  omega

/-- `get` never makes the dictionary longer. -/
theorem get_length_le {α β : Type} [DecidableEq α] (c : LRUCache α β) (k : α) :
    (c.get k).2.d.length ≤ c.d.length := by
  unfold LRUCache.get
  rcases h : assocGet c.d k with - | v
  · simp
  · simp only
    have hmem : (k, v) ∈ c.d := assocGet_mem h
    have hlt : (c.d.filter fun p => decide (p.1 ≠ k)).length < c.d.length := by
      rw [List.length_filter_lt_length_iff_exists]
      exact ⟨(k, v), hmem, by simp⟩
    simp only [List.length_append, List.length_singleton]
    omega

theorem get_max_eq {α β : Type} [DecidableEq α] (c : LRUCache α β) (k : α) :
    (c.get k).2.max = c.max := by
  unfold LRUCache.get
  rcases h : assocGet c.d k with - | v <;> simp

theorem runOps_invariant {α β : Type} [DecidableEq α] (ops : List (CacheOp α β)) :
    ∀ c : LRUCache α β, c.d.length ≤ c.max →
      (runOps c ops).d.length ≤ (runOps c ops).max ∧ (runOps c ops).max = c.max := by
  induction ops with
  | nil => intro c h; exact ⟨h, rfl⟩
  | cons op rest ih =>
    intro c h
    cases op with
    | get k =>
      have h1 : (c.get k).2.d.length ≤ (c.get k).2.max := by
        rw [get_max_eq]
        exact le_trans (get_length_le c k) h
      have := ih (c.get k).2 h1
      exact ⟨this.1, this.2.trans (get_max_eq c k)⟩
    | put k v =>
      have h1 : (c.put k v).d.length ≤ (c.put k v).max := put_length_le c k v
      have := ih (c.put k v) h1
      exact ⟨this.1, this.2⟩

/-- The operation list `put k₁ v₁; put k₂ v₂; …` for a list of pairs. -/
def putOps {α β : Type} (kvs : List (α × β)) : List (CacheOp α β) :=
  kvs.map fun p => CacheOp.put p.1 p.2

/-- Effect of a sequence of `put`s of fresh, pairwise-distinct keys on a
    dictionary `d0` within capacity: the oldest entries are dropped so that
    exactly the most recent `N` of `d0 ++ kvs` remain. -/
theorem runOps_puts_fresh {α β : Type} [DecidableEq α] :
    ∀ (kvs d0 : List (α × β)) (N : Nat),
      d0.length ≤ N → ((d0 ++ kvs).map Prod.fst).Nodup →
      (runOps ⟨N, d0⟩ (putOps kvs)).d = (d0 ++ kvs).drop (d0.length + kvs.length - N) := by
  intro kvs
  induction kvs with
  | nil =>
    intro d0 N hlen _hnd
    simp only [putOps, List.map_nil, runOps, List.append_nil]
    have h0 : d0.length - N = 0 := by omega
    simp [h0]
  | cons p rest ih =>
    intro d0 N hlen hnd
    have hfresh : ∀ q ∈ d0, q.1 ≠ p.1 := by
      intro q hq hc
      have h1 : q.1 ∈ d0.map Prod.fst := List.mem_map.mpr ⟨q, hq, rfl⟩
      have h2 : p.1 ∈ (p :: rest).map Prod.fst := by simp
      rw [List.map_append, List.nodup_append] at hnd
      exact hnd.2.2 h1 (hc ▸ h2)
    have hfilter : (d0.filter fun q => decide (q.1 ≠ p.1)) = d0 :=
      List.filter_eq_self.mpr fun q hq => by simpa using hfresh q hq
    have hput : ((⟨N, d0⟩ : LRUCache α β).put p.1 p.2).d
        = (d0 ++ [p]).drop (d0.length + 1 - N) := by
      unfold LRUCache.put
      rw [hfilter, evictLoop_eq_drop]
      simp
    have hsub : List.Sublist (((d0 ++ [p]).drop (d0.length + 1 - N)) ++ rest)
        (d0 ++ p :: rest) := by
      have h1 : List.Sublist ((d0 ++ [p]).drop (d0.length + 1 - N)) (d0 ++ [p]) :=
        List.drop_sublist _ _
      have h2 := List.Sublist.append h1 (List.Sublist.refl rest)
      simpa using h2
    have hnd2 : ((((d0 ++ [p]).drop (d0.length + 1 - N)) ++ rest).map Prod.fst).Nodup := by
      exact List.Nodup.sublist (List.Sublist.map Prod.fst hsub) hnd
    have hlen2 : ((d0 ++ [p]).drop (d0.length + 1 - N)).length ≤ N := by
      simp only [List.length_drop, List.length_append, List.length_cons, List.length_nil]
      omega
    have hrun : runOps (⟨N, d0⟩ : LRUCache α β) (putOps (p :: rest))
        = runOps (⟨N, (d0 ++ [p]).drop (d0.length + 1 - N)⟩ : LRUCache α β) (putOps rest) := by
      simp only [putOps, List.map_cons, runOps]
      congr 1
      have hmax : ((⟨N, d0⟩ : LRUCache α β).put p.1 p.2).max = N := rfl
      calc (⟨N, d0⟩ : LRUCache α β).put p.1 p.2
          = ⟨((⟨N, d0⟩ : LRUCache α β).put p.1 p.2).max,
             ((⟨N, d0⟩ : LRUCache α β).put p.1 p.2).d⟩ := rfl
      _ = ⟨N, (d0 ++ [p]).drop (d0.length + 1 - N)⟩ := by rw [hmax, hput]
    rw [hrun, ih _ N hlen2 hnd2]
    have hle : d0.length + 1 - N ≤ (d0 ++ [p]).length := by
      simp only [List.length_append, List.length_cons, List.length_nil]
      omega
    rw [← List.drop_append_of_le_length hle, List.drop_drop]
    have hX : (d0 ++ [p]) ++ rest = d0 ++ p :: rest := by simp
    rw [hX]
    congr 1
    simp only [List.length_drop, List.length_append, List.length_cons, List.length_nil]
    omega

/-- Looking up the key of an entry whose index is below the drop point of a
    key-distinct association list fails. -/
theorem assocGet_drop_eq_none {α β : Type} [DecidableEq α] (kvs : List (α × β))
    (hnd : (kvs.map Prod.fst).Nodup) {m i : Nat} (h : i < kvs.length) (him : i < m) :
    assocGet (kvs.drop m) (kvs.get ⟨i, h⟩).1 = none := by
  apply assocGet_eq_none
  intro p hp hkey
  obtain ⟨j, hj, hpj⟩ := List.mem_iff_getElem.mp hp
  have hjlen : m + j < kvs.length := by
    simp only [List.length_drop] at hj
    omega
  have hpj2 : kvs.get ⟨m + j, hjlen⟩ = p := by
    rw [List.get_eq_getElem, ← hpj]
    exact (List.getElem_drop kvs).symm
  have hne := List.nodup_iff_getElem?_ne_getElem?.mp hnd i (m + j) (by omega)
    (by simpa using hjlen)
  apply hne
  rw [List.getElem?_eq_getElem (by simpa using h),
      List.getElem?_eq_getElem (by simpa using hjlen)]
  simp only [List.getElem_map, Option.some.injEq]
  simp only [List.get_eq_getElem] at hpj2 hkey
  rw [hpj2, ← hkey]

/-- Looking up the key of an entry at or past the drop point of a
    key-distinct association list returns its value. -/
theorem assocGet_drop_eq_some {α β : Type} [DecidableEq α] (kvs : List (α × β))
    (hnd : (kvs.map Prod.fst).Nodup) {m i : Nat} (h : i < kvs.length) (him : m ≤ i) :
    assocGet (kvs.drop m) (kvs.get ⟨i, h⟩).1 = some (kvs.get ⟨i, h⟩).2 := by
  obtain ⟨j, rfl⟩ : ∃ j, i = m + j := ⟨i - m, by omega⟩
  have hj : j < (kvs.drop m).length := by
    simp only [List.length_drop]
    omega
  have hmem : kvs.get ⟨m + j, h⟩ ∈ kvs.drop m := by
    rw [List.mem_iff_getElem]
    refine ⟨j, hj, ?_⟩
    rw [List.get_eq_getElem]
    exact List.getElem_drop kvs
  have hnd2 : ((kvs.drop m).map Prod.fst).Nodup :=
    List.Nodup.sublist (List.Sublist.map Prod.fst (List.drop_sublist _ _)) hnd
  have := assocGet_of_mem (k := (kvs.get ⟨m + j, h⟩).1) (v := (kvs.get ⟨m + j, h⟩).2)
    hnd2 (by simpa using hmem)
  exact this

/-- C4: starting from an empty cache of capacity `N`, no sequence of
    `get`/`put` operations ever leaves more than `N` entries; and after
    `put`-ing `N + k` distinct keys (`k ≥ 1`, no intervening re-accesses)
    the `k` earliest-inserted keys are absent and the remaining `N` keys
    are present with their stored values. -/
theorem claim_C4 {α β : Type} [DecidableEq α] (N : Nat) :
    (∀ ops : List (CacheOp α β), (runOps ⟨N, []⟩ ops).d.length ≤ N) ∧
    (∀ kvs : List (α × β), (kvs.map Prod.fst).Nodup → N + 1 ≤ kvs.length →
      ∀ i (h : i < kvs.length),
        (i < kvs.length - N →
          ((runOps (⟨N, []⟩ : LRUCache α β) (putOps kvs)).get (kvs.get ⟨i, h⟩).1).1 = none) ∧
        (kvs.length - N ≤ i →
          ((runOps (⟨N, []⟩ : LRUCache α β) (putOps kvs)).get (kvs.get ⟨i, h⟩).1).1
            = some (kvs.get ⟨i, h⟩).2)) := by
  constructor
  · intro ops
    have h := runOps_invariant ops ⟨N, []⟩ (by simp)
    calc (runOps (⟨N, []⟩ : LRUCache α β) ops).d.length
        ≤ (runOps (⟨N, []⟩ : LRUCache α β) ops).max := h.1
    _ = N := h.2
  · intro kvs hnd hlong i h
    have hfinal : (runOps (⟨N, []⟩ : LRUCache α β) (putOps kvs)).d
        = kvs.drop (kvs.length - N) := by
      have := runOps_puts_fresh kvs [] N (by simp) (by simpa using hnd)
      simpa using this
    constructor
    · intro hi
      rw [cacheGet_fst, hfinal]
      exact assocGet_drop_eq_none kvs hnd h hi
    · intro hi
      rw [cacheGet_fst, hfinal]
      exact assocGet_drop_eq_some kvs hnd h hi

/-- C4 witness: capacity 2, three distinct puts; the earliest key is gone,
    the two latest survive. -/
theorem claim_C4_witness :
    ((runOps (⟨2, []⟩ : LRUCache Nat Nat) (putOps [(1, 10), (2, 20), (3, 30)])).get 1).1 = none
    ∧ ((runOps (⟨2, []⟩ : LRUCache Nat Nat) (putOps [(1, 10), (2, 20), (3, 30)])).get 3).1
        = some 30
    ∧ (runOps (⟨2, []⟩ : LRUCache Nat Nat)
        [CacheOp.put 1 10, CacheOp.get 1, CacheOp.put 2 20, CacheOp.put 3 30]).d.length ≤ 2 := by
  refine ⟨?_, ?_, ?_⟩
  · have h := (claim_C4 (α := Nat) (β := Nat) 2).2 [(1, 10), (2, 20), (3, 30)]
      (by decide) (by decide) 0 (by decide)
    exact h.1 (by decide)
  · have h := (claim_C4 (α := Nat) (β := Nat) 2).2 [(1, 10), (2, 20), (3, 30)]
      (by decide) (by decide) 2 (by decide)
    exact h.2 (by decide)
  · exact (claim_C4 (α := Nat) (β := Nat) 2).1 _

/-- Removing one present key from a key-distinct dictionary shortens it by
    exactly one. -/
theorem filter_ne_length {α β : Type} [DecidableEq α] {d : List (α × β)} {k : α} {v : β}
    (hnd : (d.map Prod.fst).Nodup) (hmem : (k, v) ∈ d) :
    (d.filter fun p => decide (p.1 ≠ k)).length + 1 = d.length := by
  induction d with
  | nil => simp at hmem
  | cons p rest ih =>
    rw [List.map_cons, List.nodup_cons] at hnd
    rcases List.mem_cons.mp hmem with heq | hmm
    · subst heq
      have hrest : (rest.filter fun p => decide (p.1 ≠ k)) = rest := by
        apply List.filter_eq_self.mpr
        intro q hq
        have hqk : q.1 ≠ k := fun hc => hnd.1 (hc ▸ List.mem_map.mpr ⟨q, hq, rfl⟩)
        simpa using hqk
      have h1 : (((k, v) :: rest).filter fun p => decide (p.1 ≠ k))
          = rest.filter fun p => decide (p.1 ≠ k) := by
        simp [List.filter_cons]
      rw [h1, hrest, List.length_cons]
    · have hp : p.1 ≠ k := by
        intro hc
        exact hnd.1 (hc ▸ List.mem_map.mpr ⟨(k, v), hmm, rfl⟩)
      have h1 : ((p :: rest).filter fun q => decide (q.1 ≠ k))
          = p :: (rest.filter fun q => decide (q.1 ≠ k)) := by
        simp [List.filter_cons, hp]
      have h2 := ih hnd.2 hmm
      simp only [h1, List.length_cons]
      omega

/-- C8: on a cache at capacity holding `K`, a `get K` hit followed by
    `put`s of `max - 1` distinct new keys leaves `K` present with its
    stored value (recency protects it), and a `get` on a missing key
    returns absent with no side effect on the cache. -/
theorem claim_C8 {α β : Type} [DecidableEq α] (c : LRUCache α β) (K : α) (v : β)
    (news : List (α × β))
    (hcap : c.d.length = c.max)
    (hnd : (c.d.map Prod.fst).Nodup)
    (hmem : (K, v) ∈ c.d)
    (hlen : news.length = c.max - 1)
    (hfresh : ∀ p ∈ news, p.1 ∉ c.d.map Prod.fst)
    (hndnew : (news.map Prod.fst).Nodup) :
    ((runOps (c.get K).2 (putOps news)).get K).1 = some v ∧
    (∀ (c2 : LRUCache α β) (k : α), assocGet c2.d k = none → c2.get k = (none, c2)) := by
  constructor
  · have hK : assocGet c.d K = some v := assocGet_of_mem hnd hmem
    have hget : (c.get K).2
        = ⟨c.max, (c.d.filter fun p => decide (p.1 ≠ K)) ++ [(K, v)]⟩ := by
      unfold LRUCache.get
      rw [hK]
    set f := c.d.filter fun p => decide (p.1 ≠ K) with hf
    have hflen : f.length + 1 = c.max := by
      rw [hf, filter_ne_length hnd hmem, hcap]
    have hfK : ∀ p ∈ f, p.1 ≠ K := by
      intro p hp
      have := List.mem_filter.mp (hf ▸ hp)
      simpa using this.2
    have hndf : (((f ++ [(K, v)]) ++ news).map Prod.fst).Nodup := by
      have hsubf : List.Sublist (f.map Prod.fst) (c.d.map Prod.fst) :=
        List.Sublist.map Prod.fst (List.filter_sublist c.d)
      rw [List.map_append, List.nodup_append]
      refine ⟨?_, ?_, ?_⟩
      · rw [List.map_append, List.nodup_append]
        refine ⟨List.Nodup.sublist hsubf hnd, by simp, ?_⟩
        intro a ha hb
        obtain ⟨p, hp, rfl⟩ := List.mem_map.mp ha
        simp only [List.map_cons, List.map_nil, List.mem_singleton] at hb
        exact hfK p hp hb
      · exact hndnew
      · intro a ha hb
        obtain ⟨p, hp, rfl⟩ := List.mem_map.mp hb
        have hfa := hfresh p hp
        rw [List.map_append] at ha
        rcases List.mem_append.mp ha with h1 | h1
        · exact hfa (List.Sublist.mem h1 (List.Sublist.map Prod.fst (List.filter_sublist c.d)))
        · simp only [List.map_cons, List.map_nil, List.mem_singleton] at h1
          exact hfa (h1 ▸ List.mem_map.mpr ⟨(K, v), hmem, rfl⟩)
    have hlenf : (f ++ [(K, v)]).length ≤ c.max := by
      simp only [List.length_append, List.length_cons, List.length_nil]
      omega
    have hrun := runOps_puts_fresh news (f ++ [(K, v)]) c.max hlenf hndf
    have hN1 : 1 ≤ c.max := by
      have : 0 < c.d.length := List.length_pos_of_mem hmem
      omega
    have hdropamt : (f ++ [(K, v)]).length + news.length - c.max = f.length := by
      simp only [List.length_append, List.length_cons, List.length_nil]
      omega
    rw [hget, cacheGet_fst, hrun, hdropamt, List.append_assoc, List.drop_left]
    simp [assocGet]
  · intro c2 k hk
    unfold LRUCache.get
    rw [hk]

/-- C8 witness: capacity 2 holding keys 1 and 2; `get 1` then `put 3`
    evicts 2, not 1; and a missing-key `get` is a no-op. -/
theorem claim_C8_witness :
    ((runOps ((⟨2, [(1, 10), (2, 20)]⟩ : LRUCache Nat Nat).get 1).2
        (putOps [(3, 30)])).get 1).1 = some 10 := by
  have h := claim_C8 (⟨2, [(1, 10), (2, 20)]⟩ : LRUCache Nat Nat) 1 10 [(3, 30)]
    (by decide) (by decide) (by decide) (by decide) (by decide) (by decide)
  exact h.1

/-! ## Extraction (src/hayashi.py lines 44-92)

`DocModel._build_simple` and `DocModel._build_structured` walk the pages,
appending pieces to `parts` while counting characters in `char_count`,
numbering figures in `fig_id`, registering them in `figures`, and recording
one `(start, char_count)` pair per page in `page_offsets`; finally
`merged_text = "".join(parts).rstrip()`.

The external decoder's per-page answers are modelled as the fields of
`SimplePage` (plain-text mode) and `StructPage` (rawdict mode).
-/

/-- The two-character blank-line separator `"\n\n"`. -/
def nl2 : List Char := ['\n', '\n']

/-- A figure registry entry: `self.figures[fig_id]={"page":…,"xref":…,"bbox":…}`. -/
structure Fig where
  page : Nat
  xref : Nat
  bbox : Option (Int × Int × Int × Int)
deriving DecidableEq

/-- The marker token `f"[FIGURE {fig_id} (p{pno+1})]"`. -/
def figMark (figId pno : Nat) : List Char :=
  ("[FIGURE ".toList) ++ (Nat.repr figId).toList ++ (" (p".toList)
    ++ (Nat.repr (pno + 1)).toList ++ (")]".toList)

/-- What the decoder reports for one page in simple mode:
    `page.get_text("text") or ""`, and the xrefs `info[0]` of
    `page.get_images(full=False)` (empty if that call raised). -/
structure SimplePage where
  text : List Char
  imgs : List Nat

/-- The locals of a build pass: `parts` (joined), `char_count`, `fig_id`,
    plus the object fields `figures` and `page_offsets` being filled. -/
structure BuildState where
  buf : List Char
  char_count : Nat
  fig_id : Nat
  figures : List (Nat × Fig)
  page_offsets : List (Nat × Nat)

/-- The `for info in imgs` loop (lines 56-59): increment `fig_id`, emit a
    marker string, register the figure with unknown bbox. -/
def marksLoop (figId pno : Nat) : List Nat → List (List Char) × List (Nat × Fig)
  | [] => ([], [])
  | xref :: rest =>
    let mf := marksLoop (figId + 1) pno rest
    (figMark (figId + 1) pno :: mf.1, (figId + 1, ⟨pno, xref, none⟩) :: mf.2)

/-- `" ".join(marks)`. -/
def joinSpace : List (List Char) → List Char
  | [] => []
  | [m] => m
  | m :: rest => m ++ [' '] ++ joinSpace rest

/-- One iteration of the page loop of `_build_simple` (lines 47-61). -/
def simplePageStep (pno : Nat) (pg : SimplePage) (st : BuildState) : BuildState :=
  let start := st.char_count
  let txt := pyStrip pg.text
  let st1 := if txt ≠ [] then
      { st with buf := st.buf ++ txt ++ nl2, char_count := st.char_count + txt.length + 2 }
    else st
  let st2 := if pg.imgs ≠ [] then
      let mf := marksLoop st1.fig_id pno pg.imgs
      let m := joinSpace mf.1
      { st1 with
        buf := st1.buf ++ m ++ nl2,
        char_count := st1.char_count + m.length + 2,
        fig_id := st1.fig_id + pg.imgs.length,
        figures := st1.figures ++ mf.2 }
    else st1
  { st2 with page_offsets := st2.page_offsets ++ [(start, st2.char_count)] }

/-- Normal form of one simple-mode page: the characters it appends and the
    figures it registers, as functions of the page number and the incoming
    figure counter. -/
def simpleOut (pno figId : Nat) (pg : SimplePage) : List Char × List (Nat × Fig) :=
  let txt := pyStrip pg.text
  let tpart := if txt ≠ [] then txt ++ nl2 else []
  if pg.imgs ≠ [] then
    let mf := marksLoop figId pno pg.imgs
    (tpart ++ joinSpace mf.1 ++ nl2, mf.2)
  else (tpart, [])

/-- Net effect of one page on the build state: append the page's
    characters, advance the counters, register its figures, and record its
    offset range. -/
def applyOut (st : BuildState) (out : List Char × List (Nat × Fig)) : BuildState :=
  { buf := st.buf ++ out.1,
    char_count := st.char_count + out.1.length,
    fig_id := st.fig_id + out.2.length,
    figures := st.figures ++ out.2,
    page_offsets := st.page_offsets ++ [(st.char_count, st.char_count + out.1.length)] }

theorem marksLoop_snd_length (pno : Nat) :
    ∀ (xs : List Nat) (figId : Nat), (marksLoop figId pno xs).2.length = xs.length := by
  intro xs
  induction xs with
  | nil => intro figId; rfl
  | cons x rest ih =>
    intro figId
    simp only [marksLoop, List.length_cons, ih]

theorem simplePageStep_eq (pno : Nat) (pg : SimplePage) (st : BuildState) :
    simplePageStep pno pg st = applyOut st (simpleOut pno st.fig_id pg) := by
  unfold simplePageStep simpleOut applyOut
  by_cases ht : pyStrip pg.text ≠ [] <;> by_cases hi : pg.imgs ≠ [] <;>
    simp [ht, hi, BuildState.mk.injEq, Prod.mk.injEq, marksLoop_snd_length, nl2,
      List.append_assoc] <;>
    omega

/-! ### Structured mode (lines 63-92)

`page.get_text("rawdict")` yields a dict of blocks; type-0 blocks carry
lines of spans (we keep just each span's text), type-1 blocks are images.
`blk.get("xref") or blk.get("image")` is modelled as the already-resolved
`xref` field, `0` standing for a falsy result (the `if xref:` guard).
Coordinates are modelled as integers; the comparisons only matter when
`strip_headers` is set, with `top_cut = 60` and `bot_cut = height - 60`. -/

structure BBox where
  x0 : Int
  y0 : Int
  x1 : Int
  y1 : Int
deriving DecidableEq

inductive Block where
  | text (bbox : BBox) (lines : List (List (List Char)))
  | image (xref : Nat) (bbox : BBox)
deriving DecidableEq

/-- What the decoder reports for one page in structured mode: the page
    height, the rawdict blocks, and the plain text used as fallback. -/
structure StructPage where
  height : Int
  blocks : List Block
  text : List Char

/-- One line of a text block (lines 77-80): `s = "".join(span texts)`;
    if `s.strip()` is non-empty append `s` and a newline and set `wrote`. -/
def structLineStep (p : BuildState × Bool) (line : List (List Char)) : BuildState × Bool :=
  let s := line.flatten
  if pyStrip s ≠ [] then
    ({ p.1 with buf := p.1.buf ++ s ++ ['\n'], char_count := p.1.char_count + s.length + 1 },
     true)
  else p

/-- One block of the structured page loop (lines 71-87). -/
def structBlockStep (strip : Bool) (h : Int) (pno : Nat) (p : BuildState × Bool)
    (b : Block) : BuildState × Bool :=
  match b with
  | .text bb lines =>
    if strip ∧ (bb.y1 ≤ 60 ∨ bb.y0 ≥ h - 60) then p
    else
      let q := lines.foldl structLineStep p
      ({ q.1 with buf := q.1.buf ++ ['\n'], char_count := q.1.char_count + 1 }, q.2)
  | .image xref bb =>
    if xref ≠ 0 then
      let fid := p.1.fig_id + 1
      let mark := figMark fid pno
      ({ p.1 with
         buf := p.1.buf ++ mark ++ nl2,
         char_count := p.1.char_count + mark.length + 2,
         fig_id := fid,
         figures := p.1.figures ++ [(fid, ⟨pno, xref, some (bb.x0, bb.y0, bb.x1, bb.y1)⟩)] },
       p.2)
    else p

/-- One iteration of the page loop of `_build_structured` (lines 66-91):
    run the block loop with `wrote = False`, fall back to plain text when
    nothing was written, then record the page's offset range. -/
def structPageStep (strip : Bool) (pno : Nat) (pg : StructPage) (st : BuildState) :
    BuildState :=
  let start := st.char_count
  let q := pg.blocks.foldl (structBlockStep strip pg.height pno) (st, false)
  let st2 := if q.2 then q.1 else
    let txt := pyStrip pg.text
    if txt ≠ [] then
      { q.1 with buf := q.1.buf ++ txt ++ nl2, char_count := q.1.char_count + txt.length + 2 }
    else q.1
  { st2 with page_offsets := st2.page_offsets ++ [(start, st2.char_count)] }

/-- Characters contributed by one line of a text block. -/
def lineOut (line : List (List Char)) : List Char :=
  let s := line.flatten
  if pyStrip s ≠ [] then s ++ ['\n'] else []

/-- Normal form of one block: the characters it appends, the figures it
    registers, and whether it set the `wrote` flag. -/
def blockOut (strip : Bool) (h : Int) (pno figId : Nat) :
    Block → List Char × List (Nat × Fig) × Bool
  | .text bb lines =>
    if strip ∧ (bb.y1 ≤ 60 ∨ bb.y0 ≥ h - 60) then ([], [], false)
    else ((lines.map lineOut).flatten ++ ['\n'], [],
          lines.any fun line => decide (pyStrip line.flatten ≠ []))
  | .image xref bb =>
    if xref ≠ 0 then
      (figMark (figId + 1) pno ++ nl2,
       [(figId + 1, ⟨pno, xref, some (bb.x0, bb.y0, bb.x1, bb.y1)⟩)], false)
    else ([], [], false)

/-- Normal form of a block list, threading the figure counter. -/
def blocksOut (strip : Bool) (h : Int) (pno : Nat) : Nat → List Block →
    List Char × List (Nat × Fig) × Bool
  | _, [] => ([], [], false)
  | figId, b :: rest =>
    let o := blockOut strip h pno figId b
    let r := blocksOut strip h pno (figId + o.2.1.length) rest
    (o.1 ++ r.1, o.2.1 ++ r.2.1, o.2.2 || r.2.2)

/-- Normal form of one structured-mode page. -/
def structOut (strip : Bool) (pno figId : Nat) (pg : StructPage) :
    List Char × List (Nat × Fig) :=
  let r := blocksOut strip pg.height pno figId pg.blocks
  if r.2.2 then (r.1, r.2.1)
  else
    let txt := pyStrip pg.text
    if txt ≠ [] then (r.1 ++ txt ++ nl2, r.2.1) else (r.1, r.2.1)

/-- Append-only delta on the build state (no offset recording). -/
def applyDelta (st : BuildState) (c : List Char) (fs : List (Nat × Fig)) : BuildState :=
  { st with
    buf := st.buf ++ c,
    char_count := st.char_count + c.length,
    fig_id := st.fig_id + fs.length,
    figures := st.figures ++ fs }

theorem applyDelta_applyDelta (st : BuildState) (c1 c2 : List Char)
    (f1 f2 : List (Nat × Fig)) :
    applyDelta (applyDelta st c1 f1) c2 f2 = applyDelta st (c1 ++ c2) (f1 ++ f2) := by
  simp [applyDelta, List.append_assoc]
  omega

theorem structLineStep_foldl (lines : List (List (List Char))) :
    ∀ (st : BuildState) (w : Bool),
      lines.foldl structLineStep (st, w)
        = (applyDelta st (lines.map lineOut).flatten [],
           w || lines.any fun line => decide (pyStrip line.flatten ≠ [])) := by
  induction lines with
  | nil =>
    intro st w
    simp [applyDelta]
  | cons line rest ih =>
    intro st w
    rw [List.foldl_cons]
    by_cases hl : pyStrip line.flatten ≠ []
    · have hstep : structLineStep (st, w) line
          = (applyDelta st (line.flatten ++ ['\n']) [], true) := by
        simp [structLineStep, hl, applyDelta, BuildState.mk.injEq]
        omega
      rw [hstep, ih]
      rw [applyDelta_applyDelta]
      simp [lineOut, hl]
    · have hl2 : pyStrip line.flatten = [] := not_not.mp hl
      have hstep : structLineStep (st, w) line = (st, w) := by
        simp [structLineStep, hl2]
      rw [hstep, ih]
      have h0 : lineOut line = [] := by
        simp [lineOut, hl2]
      simp [h0, hl2]

theorem structBlockStep_eq (strip : Bool) (h : Int) (pno : Nat) (st : BuildState) (w : Bool)
    (b : Block) :
    structBlockStep strip h pno (st, w) b
      = (applyDelta st (blockOut strip h pno st.fig_id b).1
           (blockOut strip h pno st.fig_id b).2.1,
         w || (blockOut strip h pno st.fig_id b).2.2) := by
  cases b with
  | text bb lines =>
    simp only [structBlockStep, blockOut]
    by_cases hc : strip ∧ (bb.y1 ≤ 60 ∨ bb.y0 ≥ h - 60)
    · rw [if_pos hc, if_pos hc]
      simp [applyDelta]
    · rw [if_neg hc, if_neg hc]
      rw [structLineStep_foldl]
      simp [applyDelta, BuildState.mk.injEq, List.append_assoc]
      omega
  | image xref bb =>
    simp only [structBlockStep, blockOut]
    by_cases hx : xref ≠ 0
    · rw [if_pos hx, if_pos hx]
      simp [applyDelta, BuildState.mk.injEq, nl2, List.append_assoc]
      omega
    · rw [if_neg hx, if_neg hx]
      simp [applyDelta]

theorem structBlockStep_foldl (strip : Bool) (h : Int) (pno : Nat) (blocks : List Block) :
    ∀ (st : BuildState) (w : Bool),
      blocks.foldl (structBlockStep strip h pno) (st, w)
        = (applyDelta st (blocksOut strip h pno st.fig_id blocks).1
            (blocksOut strip h pno st.fig_id blocks).2.1,
           w || (blocksOut strip h pno st.fig_id blocks).2.2) := by
  induction blocks with
  | nil =>
    intro st w
    simp [blocksOut, applyDelta]
  | cons b rest ih =>
    intro st w
    rw [List.foldl_cons, structBlockStep_eq, ih, applyDelta_applyDelta]
    simp [blocksOut, applyDelta, Bool.or_assoc]

theorem structPageStep_eq (strip : Bool) (pno : Nat) (pg : StructPage) (st : BuildState) :
    structPageStep strip pno pg st = applyOut st (structOut strip pno st.fig_id pg) := by
  unfold structPageStep structOut
  rw [structBlockStep_foldl]
  by_cases hw : (blocksOut strip pg.height pno st.fig_id pg.blocks).2.2
  · simp [hw, applyOut, applyDelta]
  · by_cases htxt : pyStrip pg.text ≠ []
    · simp [hw, htxt, applyOut, applyDelta, BuildState.mk.injEq, nl2, List.append_assoc]
      omega
    · simp [hw, htxt, applyOut, applyDelta]

/-! ### The page loops and the build entry points -/

/-- The `for pno in range(self.page_count)` loop of `_build_simple`. -/
def buildSimpleLoop : Nat → List SimplePage → BuildState → BuildState
  | _, [], st => st
  | pno, pg :: rest, st => buildSimpleLoop (pno + 1) rest (simplePageStep pno pg st)

/-- The `for pno in range(self.page_count)` loop of `_build_structured`. -/
def buildStructLoop (strip : Bool) : Nat → List StructPage → BuildState → BuildState
  | _, [], st => st
  | pno, pg :: rest, st => buildStructLoop strip (pno + 1) rest (structPageStep strip pno pg st)

/-- Page loop in normal form: each page applies its out-function. -/
def genLoop {α : Type} (f : Nat → Nat → α → List Char × List (Nat × Fig)) :
    Nat → List α → BuildState → BuildState
  | _, [], st => st
  | pno, pg :: rest, st => genLoop f (pno + 1) rest (applyOut st (f pno st.fig_id pg))

theorem buildSimpleLoop_eq_gen :
    ∀ (pages : List SimplePage) (pno : Nat) (st : BuildState),
      buildSimpleLoop pno pages st = genLoop simpleOut pno pages st := by
  intro pages
  induction pages with
  | nil => intro pno st; rfl
  | cons pg rest ih =>
    intro pno st
    simp only [buildSimpleLoop, genLoop]
    rw [simplePageStep_eq]
    exact ih (pno + 1) _

theorem buildStructLoop_eq_gen (strip : Bool) :
    ∀ (pages : List StructPage) (pno : Nat) (st : BuildState),
      buildStructLoop strip pno pages st = genLoop (structOut strip) pno pages st := by
  intro pages
  induction pages with
  | nil => intro pno st; rfl
  | cons pg rest ih =>
    intro pno st
    simp only [buildStructLoop, genLoop]
    rw [structPageStep_eq]
    exact ih (pno + 1) _

/-- The extraction output held on the `DocModel` object:
    `merged_text`, `figures`, `page_offsets`. -/
structure DocText where
  merged_text : List Char
  figures : List (Nat × Fig)
  page_offsets : List (Nat × Nat)
deriving DecidableEq

/-- `parts=[]; char_count=0; fig_id=0; self.figures.clear();
    self.page_offsets.clear()` (lines 45-46 / 64-65): the pass starts from
    scratch whatever was stored before. -/
def emptyBuild : BuildState := ⟨[], 0, 0, [], []⟩

/-- `DocModel._build_simple` (lines 44-62).  `_prev` is the extraction
    state left over on the object; it is cleared, never read. -/
def DocModel.build_simple (pages : List SimplePage) (_prev : DocText) : DocText :=
  let st := buildSimpleLoop 0 pages emptyBuild
  ⟨pyRstrip st.buf, st.figures, st.page_offsets⟩

/-- `DocModel._build_structured` (lines 63-92). -/
def DocModel.build_structured (strip : Bool) (pages : List StructPage) (_prev : DocText) :
    DocText :=
  let st := buildStructLoop strip 0 pages emptyBuild
  ⟨pyRstrip st.buf, st.figures, st.page_offsets⟩

/-- A document together with the chosen extraction mode (line 40). -/
inductive ExtractInput where
  | simple (pages : List SimplePage)
  | structured (strip : Bool) (pages : List StructPage)

/-- `(self._build_simple if self.mode=="simple" else self._build_structured)()`. -/
def runExtract : ExtractInput → DocText → DocText
  | .simple pages, prev => DocModel.build_simple pages prev
  | .structured strip pages, prev => DocModel.build_structured strip pages prev

def emptyDocText : DocText := ⟨[], [], []⟩

/-- Extraction run on a freshly-constructed model. -/
def runBuild (inp : ExtractInput) : DocText := runExtract inp emptyDocText

def pageCountOf : ExtractInput → Nat
  | .simple pages => pages.length
  | .structured _ pages => pages.length

/-! ### Shape of a build pass -/

/-- The per-page outputs of a build pass, page number and figure counter
    threaded exactly as the loop threads them. -/
def outsFrom {α : Type} (f : Nat → Nat → α → List Char × List (Nat × Fig)) :
    Nat → Nat → List α → List (List Char × List (Nat × Fig))
  | _, _, [] => []
  | pno, figId, pg :: rest =>
    let o := f pno figId pg
    o :: outsFrom f (pno + 1) (figId + o.2.length) rest

/-- The offset ranges recorded for a list of page-contribution lengths,
    starting from running count `c`. -/
def offsetsFrom : Nat → List Nat → List (Nat × Nat)
  | _, [] => []
  | c, l :: ls => (c, c + l) :: offsetsFrom (c + l) ls

theorem genLoop_spec {α : Type} (f : Nat → Nat → α → List Char × List (Nat × Fig)) :
    ∀ (pages : List α) (pno : Nat) (st : BuildState),
      genLoop f pno pages st =
        { buf := st.buf ++ ((outsFrom f pno st.fig_id pages).map Prod.fst).flatten,
          char_count := st.char_count
            + (((outsFrom f pno st.fig_id pages).map Prod.fst).map List.length).sum,
          fig_id := st.fig_id
            + (((outsFrom f pno st.fig_id pages).map Prod.snd).map List.length).sum,
          figures := st.figures ++ ((outsFrom f pno st.fig_id pages).map Prod.snd).flatten,
          page_offsets := st.page_offsets ++ offsetsFrom st.char_count
            (((outsFrom f pno st.fig_id pages).map Prod.fst).map List.length) } := by
  intro pages
  induction pages with
  | nil =>
    intro pno st
    simp [genLoop, outsFrom, offsetsFrom]
  | cons pg rest ih =>
    intro pno st
    simp only [genLoop, outsFrom]
    rw [ih]
    simp [applyOut, offsetsFrom, BuildState.mk.injEq, List.append_assoc]
    omega

theorem outsFrom_length {α : Type} (f : Nat → Nat → α → List Char × List (Nat × Fig)) :
    ∀ (pages : List α) (pno figId : Nat),
      (outsFrom f pno figId pages).length = pages.length := by
  intro pages
  induction pages with
  | nil => intro pno figId; rfl
  | cons pg rest ih =>
    intro pno figId
    simp only [outsFrom, List.length_cons, ih]

theorem offsetsFrom_length : ∀ (ls : List Nat) (c : Nat),
    (offsetsFrom c ls).length = ls.length := by
  intro ls
  induction ls with
  | nil => intro c; rfl
  | cons l rest ih =>
    intro c
    simp only [offsetsFrom, List.length_cons, ih]

theorem offsetsFrom_getD : ∀ (ls : List Nat) (c i : Nat), i < ls.length →
    (offsetsFrom c ls).getD i (0, 0)
      = (c + (ls.take i).sum, c + (ls.take (i + 1)).sum) := by
  intro ls
  induction ls with
  | nil => intro c i h; simp at h
  | cons l rest ih =>
    intro c i h
    cases i with
    | zero => simp [offsetsFrom]
    | succ i =>
      have h2 : i < rest.length := by simpa using h
      have := ih (c + l) i h2
      simp only [offsetsFrom, List.getD_cons_succ, this, List.take_succ_cons,
        List.sum_cons, Prod.mk.injEq]
      omega

theorem sum_take_le_sum (l : List Nat) (n : Nat) : (l.take n).sum ≤ l.sum := by
  conv_rhs => rw [← List.take_append_drop n l]
  rw [List.sum_append]
  omega

theorem sum_take_mono (ls : List Nat) {n m : Nat} (h : n ≤ m) :
    (ls.take n).sum ≤ (ls.take m).sum := by
  have heq : ls.take n = (ls.take m).take n := by
    rw [List.take_take, Nat.min_eq_left h]
  rw [heq]
  exact sum_take_le_sum _ _

theorem flatten_drop_eq {α : Type} : ∀ (cs : List (List α)) (i : Nat), i < cs.length →
    cs.flatten.drop (((cs.map List.length).take i).sum)
      = cs.getD i [] ++ (cs.drop (i + 1)).flatten := by
  intro cs
  induction cs with
  | nil => intro i h; simp at h
  | cons c0 rest ih =>
    intro i h
    cases i with
    | zero => simp
    | succ i =>
      have h2 : i < rest.length := by simpa using h
      simp only [List.map_cons, List.take_succ_cons, List.sum_cons, List.flatten_cons,
        List.getD_cons_succ, List.drop_succ_cons]
      rw [List.drop_append, ih i h2]

/-- Per-page outputs (characters appended, figures registered) of a pass. -/
def buildOuts : ExtractInput → List (List Char × List (Nat × Fig))
  | .simple pages => outsFrom simpleOut 0 0 pages
  | .structured strip pages => outsFrom (structOut strip) 0 0 pages

/-- Page `i`'s contribution to the text buffer, as assembled by the build
    procedure. -/
def buildContribs (inp : ExtractInput) : List (List Char) :=
  (buildOuts inp).map Prod.fst

theorem runBuild_eq (inp : ExtractInput) :
    runBuild inp =
      ⟨pyRstrip (buildContribs inp).flatten,
       ((buildOuts inp).map Prod.snd).flatten,
       offsetsFrom 0 ((buildContribs inp).map List.length)⟩ := by
  cases inp with
  | simple pages =>
    show DocModel.build_simple pages emptyDocText = _
    unfold DocModel.build_simple
    rw [buildSimpleLoop_eq_gen, genLoop_spec]
    simp [emptyBuild, buildOuts, buildContribs]
  | structured strip pages =>
    show DocModel.build_structured strip pages emptyDocText = _
    unfold DocModel.build_structured
    rw [buildStructLoop_eq_gen, genLoop_spec]
    simp [emptyBuild, buildOuts, buildContribs]

theorem contribs_length (inp : ExtractInput) :
    (buildContribs inp).length = pageCountOf inp := by
  cases inp <;> simp [buildContribs, buildOuts, outsFrom_length, pageCountOf]

theorem runBuild_offsets_length (inp : ExtractInput) :
    (runBuild inp).page_offsets.length = pageCountOf inp := by
  rw [runBuild_eq]
  show (offsetsFrom 0 ((buildContribs inp).map List.length)).length = _
  rw [offsetsFrom_length, List.length_map, contribs_length]

/-! ### Figure ids and ownership -/

theorem marksLoop_ids (pno : Nat) : ∀ (xs : List Nat) (figId : Nat),
    (marksLoop figId pno xs).2.map Prod.fst = List.range' (figId + 1) xs.length := by
  intro xs
  induction xs with
  | nil => intro figId; rfl
  | cons x rest ih =>
    intro figId
    simp only [marksLoop, List.map_cons, ih, List.length_cons]
    rw [List.range'_succ]

theorem simpleOut_ids (pno figId : Nat) (pg : SimplePage) :
    (simpleOut pno figId pg).2.map Prod.fst
      = List.range' (figId + 1) (simpleOut pno figId pg).2.length := by
  unfold simpleOut
  by_cases hi : pg.imgs ≠ [] <;>
    simp [hi, marksLoop_ids, marksLoop_snd_length]

theorem blockOut_ids (strip : Bool) (h : Int) (pno figId : Nat) (b : Block) :
    (blockOut strip h pno figId b).2.1.map Prod.fst
      = List.range' (figId + 1) (blockOut strip h pno figId b).2.1.length := by
  cases b with
  | text bb lines =>
    simp only [blockOut]
    split <;> simp
  | image xref bb =>
    simp only [blockOut]
    split <;> simp [List.range'_succ]

theorem blocksOut_ids (strip : Bool) (h : Int) (pno : Nat) :
    ∀ (blocks : List Block) (figId : Nat),
      (blocksOut strip h pno figId blocks).2.1.map Prod.fst
        = List.range' (figId + 1) (blocksOut strip h pno figId blocks).2.1.length := by
  intro blocks
  induction blocks with
  | nil => intro figId; rfl
  | cons b rest ih =>
    intro figId
    simp only [blocksOut, List.map_append, List.length_append]
    rw [blockOut_ids, ih]
    have harith : figId + (blockOut strip h pno figId b).2.1.length + 1
        = (figId + 1) + (blockOut strip h pno figId b).2.1.length := by omega
    rw [harith, List.range'_append_1]
    congr 1
    omega

theorem structOut_snd (strip : Bool) (pno figId : Nat) (pg : StructPage) :
    (structOut strip pno figId pg).2
      = (blocksOut strip pg.height pno figId pg.blocks).2.1 := by
  unfold structOut
  by_cases hw : (blocksOut strip pg.height pno figId pg.blocks).2.2 <;>
    by_cases htxt : pyStrip pg.text ≠ [] <;>
      simp [hw, htxt]

theorem structOut_ids (strip : Bool) (pno figId : Nat) (pg : StructPage) :
    (structOut strip pno figId pg).2.map Prod.fst
      = List.range' (figId + 1) (structOut strip pno figId pg).2.length := by
  rw [structOut_snd, blocksOut_ids]

theorem outsFrom_ids {α : Type} (f : Nat → Nat → α → List Char × List (Nat × Fig))
    (hf : ∀ (pno figId : Nat) (pg : α), (f pno figId pg).2.map Prod.fst
      = List.range' (figId + 1) (f pno figId pg).2.length) :
    ∀ (pages : List α) (pno figId : Nat),
      (((outsFrom f pno figId pages).map Prod.snd).flatten).map Prod.fst
        = List.range' (figId + 1)
            (((outsFrom f pno figId pages).map Prod.snd).flatten).length := by
  intro pages
  induction pages with
  | nil => intro pno figId; rfl
  | cons pg rest ih =>
    intro pno figId
    simp only [outsFrom, List.map_cons, List.flatten_cons, List.map_append,
      List.length_append]
    rw [hf, ih]
    have harith : figId + (f pno figId pg).2.length + 1
        = (figId + 1) + (f pno figId pg).2.length := by omega
    rw [harith, List.range'_append_1]
    congr 1
    omega

theorem marksLoop_mem (pno : Nat) : ∀ (xs : List Nat) (figId : Nat) (e : Nat × Fig),
    e ∈ (marksLoop figId pno xs).2 →
      e.2.page = pno ∧ e.2.bbox = none ∧ e.2.xref ∈ xs := by
  intro xs
  induction xs with
  | nil => intro figId e he; simp [marksLoop] at he
  | cons x rest ih =>
    intro figId e he
    simp only [marksLoop, List.mem_cons] at he
    rcases he with rfl | he
    · exact ⟨rfl, rfl, by simp⟩
    · have := ih (figId + 1) e he
      exact ⟨this.1, this.2.1, List.mem_cons_of_mem _ this.2.2⟩

theorem simpleOut_mem (pno figId : Nat) (pg : SimplePage) (e : Nat × Fig)
    (he : e ∈ (simpleOut pno figId pg).2) :
    e.2.page = pno ∧ e.2.bbox = none ∧ e.2.xref ∈ pg.imgs := by
  unfold simpleOut at he
  by_cases hi : pg.imgs ≠ []
  · rw [if_pos hi] at he
    exact marksLoop_mem pno pg.imgs figId e he
  · rw [if_neg hi] at he
    simp at he

theorem blockOut_mem (strip : Bool) (h : Int) (pno figId : Nat) (b : Block) (e : Nat × Fig)
    (he : e ∈ (blockOut strip h pno figId b).2.1) :
    e.2.page = pno ∧ e.2.xref ≠ 0 ∧ ∃ bb : BBox,
      b = Block.image e.2.xref bb ∧ e.2.bbox = some (bb.x0, bb.y0, bb.x1, bb.y1) := by
  cases b with
  | text bb lines =>
    simp only [blockOut] at he
    split at he <;> simp at he
  | image xref bb =>
    simp only [blockOut] at he
    by_cases hx : xref ≠ 0
    · rw [if_pos hx] at he
      simp only [List.mem_singleton] at he
      subst he
      exact ⟨rfl, hx, bb, rfl, rfl⟩
    · rw [if_neg hx] at he
      simp at he

theorem blocksOut_mem (strip : Bool) (h : Int) (pno : Nat) :
    ∀ (blocks : List Block) (figId : Nat) (e : Nat × Fig),
      e ∈ (blocksOut strip h pno figId blocks).2.1 →
        e.2.page = pno ∧ e.2.xref ≠ 0 ∧ ∃ bb : BBox,
          Block.image e.2.xref bb ∈ blocks
          ∧ e.2.bbox = some (bb.x0, bb.y0, bb.x1, bb.y1) := by
  intro blocks
  induction blocks with
  | nil => intro figId e he; simp [blocksOut] at he
  | cons b rest ih =>
    intro figId e he
    simp only [blocksOut, List.mem_append] at he
    rcases he with he | he
    · obtain ⟨h1, h2, bb, h3, h4⟩ := blockOut_mem strip h pno figId b e he
      exact ⟨h1, h2, bb, by rw [← h3]; exact List.mem_cons_self _ _, h4⟩
    · obtain ⟨h1, h2, bb, h3, h4⟩ := ih _ e he
      exact ⟨h1, h2, bb, List.mem_cons_of_mem _ h3, h4⟩

theorem structOut_mem (strip : Bool) (pno figId : Nat) (pg : StructPage) (e : Nat × Fig)
    (he : e ∈ (structOut strip pno figId pg).2) :
    e.2.page = pno ∧ e.2.xref ≠ 0 ∧ ∃ bb : BBox,
      Block.image e.2.xref bb ∈ pg.blocks
      ∧ e.2.bbox = some (bb.x0, bb.y0, bb.x1, bb.y1) := by
  rw [structOut_snd] at he
  exact blocksOut_mem strip pg.height pno pg.blocks figId e he

theorem outsFrom_mem {α : Type} (f : Nat → Nat → α → List Char × List (Nat × Fig))
    (P : Nat → α → (Nat × Fig) → Prop)
    (hf : ∀ (pno figId : Nat) (pg : α) (e : Nat × Fig),
      e ∈ (f pno figId pg).2 → P pno pg e) :
    ∀ (pages : List α) (pno figId : Nat) (e : Nat × Fig),
      e ∈ ((outsFrom f pno figId pages).map Prod.snd).flatten →
        ∃ i, ∃ h : i < pages.length, P (pno + i) (pages.get ⟨i, h⟩) e := by
  intro pages
  induction pages with
  | nil => intro pno figId e he; simp [outsFrom] at he
  | cons pg rest ih =>
    intro pno figId e he
    simp only [outsFrom, List.map_cons, List.flatten_cons, List.mem_append] at he
    rcases he with he | he
    · exact ⟨0, by simp, by simpa using hf pno figId pg e he⟩
    · obtain ⟨i, hlt, hP⟩ := ih (pno + 1) _ e he
      refine ⟨i + 1, by simpa using hlt, ?_⟩
      have : pno + (i + 1) = pno + 1 + i := by omega
      rw [this]
      simpa using hP

/-! ### Claims about extraction -/

/-- C2: after extraction in either mode, the recorded per-page offset
    ranges are monotone, non-overlapping and page-ordered: for all valid
    page indices `i < j`, `offsets[i].end ≤ offsets[j].start`. -/
theorem claim_C2 (inp : ExtractInput) (i j : Nat) (hij : i < j)
    (hj : j < pageCountOf inp) :
    ((runBuild inp).page_offsets.getD i (0, 0)).2
      ≤ ((runBuild inp).page_offsets.getD j (0, 0)).1 := by
  rw [runBuild_eq]
  dsimp only
  have hlen : ((buildContribs inp).map List.length).length = pageCountOf inp := by
    rw [List.length_map, contribs_length]
  rw [offsetsFrom_getD _ 0 i (by rw [hlen]; omega),
      offsetsFrom_getD _ 0 j (by rw [hlen]; exact hj)]
  dsimp only
  simp only [Nat.zero_add]
  exact sum_take_mono _ (by omega)

/-- C2 witness: a concrete two-page simple-mode document. -/
theorem claim_C2_witness :
    ((runBuild (ExtractInput.simple [⟨['a'], []⟩, ⟨['b'], []⟩])).page_offsets.getD 0 (0, 0)).2
      ≤ ((runBuild (ExtractInput.simple [⟨['a'], []⟩, ⟨['b'], []⟩])).page_offsets.getD 1
          (0, 0)).1 :=
  claim_C2 (ExtractInput.simple [⟨['a'], []⟩, ⟨['b'], []⟩]) 0 1 (by decide) (by decide)

/-- C9: extraction is deterministic and discards prior state wholesale:
    the output does not depend on the offsets/figures/text left on the
    object by an earlier pass (they are cleared at the start), and two runs
    on the same input produce identical merged text, offsets and figures. -/
theorem claim_C9 (inp : ExtractInput) (prev prev2 : DocText) :
    runExtract inp prev = runExtract inp prev2
    ∧ runExtract inp prev = runBuild inp := by
  cases inp <;> exact ⟨rfl, rfl⟩

/-- Ownership of a figure entry by its page, as recorded by the pass:
    simple mode registers `bbox = None` and an xref enumerated on that
    page; structured mode registers the bbox and a truthy xref of one of
    that page's image blocks. -/
def figOwned : ExtractInput → (Nat × Fig) → Prop
  | .simple pages, e => e.2.bbox = none ∧
      ∃ h : e.2.page < pages.length, e.2.xref ∈ (pages.get ⟨e.2.page, h⟩).imgs
  | .structured _ pages, e => e.2.xref ≠ 0 ∧
      ∃ h : e.2.page < pages.length, ∃ bb : BBox,
        Block.image e.2.xref bb ∈ (pages.get ⟨e.2.page, h⟩).blocks
        ∧ e.2.bbox = some (bb.x0, bb.y0, bb.x1, bb.y1)

/-- C5: within one pass the assigned figure ids are exactly `1, 2, 3, …`
    in encounter order (unique, first id 1, strictly increasing), and the
    registry ties each id to its owning page, with `bbox` unknown in
    simple mode and the reported bbox in structured mode. -/
theorem claim_C5 (inp : ExtractInput) :
    (runBuild inp).figures.map Prod.fst = List.range' 1 (runBuild inp).figures.length
    ∧ ∀ e ∈ (runBuild inp).figures, figOwned inp e := by
  rw [runBuild_eq]
  dsimp only
  constructor
  · cases inp with
    | simple pages =>
      have := outsFrom_ids simpleOut simpleOut_ids pages 0 0
      simpa [buildOuts] using this
    | structured strip pages =>
      have := outsFrom_ids (structOut strip) (structOut_ids strip) pages 0 0
      simpa [buildOuts] using this
  · intro e he
    cases inp with
    | simple pages =>
      have hmem := outsFrom_mem simpleOut
        (fun pno pg e => e.2.page = pno ∧ e.2.bbox = none ∧ e.2.xref ∈ pg.imgs)
        (fun pno figId pg e he => simpleOut_mem pno figId pg e he)
        pages 0 0 e (by simpa [buildOuts] using he)
      obtain ⟨i, hlt, hP⟩ := hmem
      have hpage : e.2.page = i := by simpa using hP.1
      simp only [figOwned]
      refine ⟨hP.2.1, ?_⟩
      rw [hpage]
      exact ⟨hlt, hP.2.2⟩
    | structured strip pages =>
      have hmem := outsFrom_mem (structOut strip)
        (fun pno pg e => e.2.page = pno ∧ e.2.xref ≠ 0 ∧ ∃ bb : BBox,
          Block.image e.2.xref bb ∈ pg.blocks
          ∧ e.2.bbox = some (bb.x0, bb.y0, bb.x1, bb.y1))
        (fun pno figId pg e he => structOut_mem strip pno figId pg e he)
        pages 0 0 e (by simpa [buildOuts] using he)
      obtain ⟨i, hlt, hP⟩ := hmem
      have hpage : e.2.page = i := by simpa using hP.1
      simp only [figOwned]
      refine ⟨hP.2.1, ?_⟩
      rw [hpage]
      exact ⟨hlt, hP.2.2⟩

theorem map_getD {α β : Type} (f : α → β) :
    ∀ (l : List α) (i : Nat), i < l.length → ∀ (d : β) (d2 : α),
      (l.map f).getD i d = f (l.getD i d2) := by
  intro l
  induction l with
  | nil => intro i h; simp at h
  | cons a rest ih =>
    intro i h d d2
    cases i with
    | zero => simp
    | succ i => simpa using ih i (by simpa using h) d d2

theorem sum_take_succ : ∀ (l : List Nat) (i : Nat), i < l.length →
    (l.take (i + 1)).sum = (l.take i).sum + l.getD i 0 := by
  intro l
  induction l with
  | nil => intro i h; simp at h
  | cons a rest ih =>
    intro i h
    cases i with
    | zero => simp
    | succ i =>
      have h2 : i < rest.length := by simpa using h
      simp only [List.take_succ_cons, List.sum_cons, List.getD_cons_succ, ih i h2]
      omega

/-- `offsets[i].start` of a pass. -/
def offStart (inp : ExtractInput) (i : Nat) : Nat :=
  ((runBuild inp).page_offsets.getD i (0, 0)).1

/-- `offsets[i].end` of a pass. -/
def offEnd (inp : ExtractInput) (i : Nat) : Nat :=
  ((runBuild inp).page_offsets.getD i (0, 0)).2

/-- `MergedText[offsets[i].start:offsets[i].end]`. -/
def pageSlice (inp : ExtractInput) (i : Nat) : List Char :=
  pySlice (runBuild inp).merged_text (offStart inp i) (offEnd inp i)

/-- Page `i`'s contribution as appended by the build procedure. -/
def pageContrib (inp : ExtractInput) (i : Nat) : List Char :=
  (buildContribs inp).getD i []

theorem offStart_eq (inp : ExtractInput) (i : Nat) (hi : i < pageCountOf inp) :
    offStart inp i = (((buildContribs inp).map List.length).take i).sum := by
  unfold offStart
  rw [runBuild_eq]
  dsimp only
  rw [offsetsFrom_getD _ 0 i (by rw [List.length_map, contribs_length]; exact hi)]
  simp

theorem offEnd_eq (inp : ExtractInput) (i : Nat) (hi : i < pageCountOf inp) :
    offEnd inp i = (((buildContribs inp).map List.length).take (i + 1)).sum := by
  unfold offEnd
  rw [runBuild_eq]
  dsimp only
  rw [offsetsFrom_getD _ 0 i (by rw [List.length_map, contribs_length]; exact hi)]
  simp

theorem offEnd_sub_offStart (inp : ExtractInput) (i : Nat) (hi : i < pageCountOf inp) :
    offEnd inp i = offStart inp i + (pageContrib inp i).length := by
  rw [offStart_eq inp i hi, offEnd_eq inp i hi]
  have hlen : i < (buildContribs inp).length := by rw [contribs_length]; exact hi
  rw [sum_take_succ _ i (by simpa using hlen)]
  rw [map_getD List.length _ i hlen _ []]
  rfl

/-- C1 counterexample: a one-page document with text `"a"`; the page's
    contribution is `"a\n\n"` and its recorded range is `[0,3)`, but the
    final `rstrip` trims the merged text to `"a"`, so the slice of the
    merged text is not the page's contribution. -/
theorem claim_C1_counterexample :
    pageContrib (ExtractInput.simple [⟨['a'], []⟩]) 0 = ['a', '\n', '\n']
    ∧ (runBuild (ExtractInput.simple [⟨['a'], []⟩])).page_offsets.getD 0 (0, 0) = (0, 3)
    ∧ pageSlice (ExtractInput.simple [⟨['a'], []⟩]) 0 = ['a']
    ∧ pageSlice (ExtractInput.simple [⟨['a'], []⟩]) 0
        ≠ pageContrib (ExtractInput.simple [⟨['a'], []⟩]) 0 := by
  refine ⟨?_, ?_, ?_, ?_⟩ <;> decide

/-- C1 (amended): each page's recorded slice of the merged text is the
    page's contribution truncated to the trimmed buffer: it is exact for
    every page whose recorded end lies within the merged text; in general
    it equals the contribution cut at `|MergedText| - start`, and the part
    cut off by the final trim is only whitespace. -/
theorem claim_C1_amended (inp : ExtractInput) (i : Nat) (hi : i < pageCountOf inp) :
    pageSlice inp i
      = (pageContrib inp i).take ((runBuild inp).merged_text.length - offStart inp i)
    ∧ (offEnd inp i ≤ (runBuild inp).merged_text.length →
        pageSlice inp i = pageContrib inp i)
    ∧ ∀ c ∈ (pageContrib inp i).drop
        ((runBuild inp).merged_text.length - offStart inp i), isPyWs c := by
  have hlen : i < (buildContribs inp).length := by rw [contribs_length]; exact hi
  have hM : (runBuild inp).merged_text = pyRstrip (buildContribs inp).flatten := by
    rw [runBuild_eq]
  have htake : (runBuild inp).merged_text
      = (buildContribs inp).flatten.take (runBuild inp).merged_text.length := by
    rw [hM, take_pyRstrip_length]
  have hdrop : (buildContribs inp).flatten.drop (offStart inp i)
      = pageContrib inp i ++ ((buildContribs inp).drop (i + 1)).flatten := by
    rw [offStart_eq inp i hi]
    exact flatten_drop_eq (buildContribs inp) i hlen
  have hes : offEnd inp i = offStart inp i + (pageContrib inp i).length :=
    offEnd_sub_offStart inp i hi
  set L := (runBuild inp).merged_text.length with hL
  set s := offStart inp i with hs
  set e := offEnd inp i with he
  set contrib := pageContrib inp i with hcontrib
  have hslice : pageSlice inp i = contrib.take (min (e - s) (L - s)) := by
    unfold pageSlice pySlice
    conv_lhs => rw [htake]
    rw [List.drop_take, List.take_take, hdrop,
        List.take_append_of_le_length (by omega)]
  have hmain : pageSlice inp i = contrib.take (L - s) := by
    rw [hslice]
    by_cases hcase : L - s ≤ e - s
    · rw [Nat.min_eq_right hcase]
    · have hmin : min (e - s) (L - s) = e - s := Nat.min_eq_left (by omega)
      rw [hmin, List.take_of_length_le (by omega), List.take_of_length_le (by omega)]
  refine ⟨hmain, ?_, ?_⟩
  · intro hend
    rw [hmain]
    exact List.take_of_length_le (by omega)
  · intro c hc
    obtain ⟨t, hUt, hws⟩ := pyRstrip_append_ws (buildContribs inp).flatten
    rw [← hM] at hUt
    have hdropL : (buildContribs inp).flatten.drop L = t := by
      rw [hUt]
      exact List.drop_left' hL.symm
    have hct : c ∈ t := by
      by_cases hsl : s ≤ L
      · have h1 : (buildContribs inp).flatten.drop L
            = ((buildContribs inp).flatten.drop s).drop (L - s) := by
          rw [List.drop_drop]
          congr 1
          omega
        have hUL : (buildContribs inp).flatten.drop L
            = contrib.drop (L - s) ++ (((buildContribs inp).drop (i + 1)).flatten).drop
                (L - s - contrib.length) := by
          rw [h1, hdrop, List.drop_append_eq_append_drop]
        have hcL : c ∈ (buildContribs inp).flatten.drop L := by
          rw [hUL]
          exact List.mem_append_left _ hc
        rwa [hdropL] at hcL
      · have h0 : L - s = 0 := by omega
        rw [h0, List.drop_zero] at hc
        have h1 : c ∈ (buildContribs inp).flatten.drop s := by
          rw [hdrop]
          exact List.mem_append_left _ hc
        have h2 : c ∈ (buildContribs inp).flatten.drop L :=
          List.Sublist.mem h1 (List.drop_sublist_drop_left _ (by omega))
        rwa [hdropL] at h2
    exact hws c hct

/-- C1 witness: the amended statement evaluated on the counterexample
    document. -/
theorem claim_C1_amended_witness :
    pageSlice (ExtractInput.simple [⟨['a'], []⟩]) 0
      = (pageContrib (ExtractInput.simple [⟨['a'], []⟩]) 0).take
          ((runBuild (ExtractInput.simple [⟨['a'], []⟩])).merged_text.length
            - offStart (ExtractInput.simple [⟨['a'], []⟩]) 0) :=
  (claim_C1_amended (ExtractInput.simple [⟨['a'], []⟩]) 0 (by decide)).1

/-! ## Page rendering (DocModel.render_page, src/hayashi.py lines 93-120)

The external decoder (PyMuPDF) and Qt image construction are modelled as
oracle functions carried by the open document handle; each call may raise,
modelled as `Except.error ()`. -/

inductive QFmt where
  | grayscale8
  | rgb888
  | rgba8888
deriving DecidableEq

/-- A QImage: either produced by the external decoder (PNG round trip or
    raw-buffer construction, an opaque id), or the painted placeholder
    tile of the failure branch (lines 118-119). -/
inductive QImage where
  | ext (id : Nat)
  | tile (w h : Nat) (text : List Char)
deriving DecidableEq

/-- A fitz pixmap: dimensions, channel count, stride, raw samples, and the
    result `tobytes("png")` would give (that call may raise too). -/
structure Pixmap where
  width : Nat
  height : Nat
  n : Nat
  stride : Nat
  samples : List Nat
  pngBytes : Except Unit (List Nat)

/-- The open document with the external operations `render_page` calls on
    it. -/
structure Doc where
  pages : Nat
  getPixmap : Nat → ℚ → Except Unit Pixmap
  fromDataPng : List Nat → Except Unit QImage
  rawImage : List Nat → Nat → Nat → Nat → QFmt → Except Unit QImage

/-- The `DocModel` fields used by `render_page`: the document handle
    (None once closed), `page_count`, the clamped `dpi`, and
    `page_pix_cache` (constructed with `max_items=20`, line 37). -/
structure DocModelR where
  doc : Option Doc
  page_count : Nat
  dpi : Nat
  page_pix_cache : LRUCache (Int × Nat × Nat) QImage

/-- `self._page_key(pno, safe) = (pno, self.dpi, int(safe))` (line 93). -/
def page_key (m : DocModelR) (pno : Int) (safe : Bool) : Int × Nat × Nat :=
  (pno, m.dpi, if safe then 1 else 0)

/-- The placeholder tile painted in the except branch (lines 118-119):
    a 320×200 fill with the text `f"Render failed p{pno+1}"`. -/
def placeholderTile (pno : Int) : QImage :=
  QImage.tile 320 200 (("Render failed p".toList) ++ (toString (pno + 1)).toList)

/-- The body of the `try:` block (lines 100-116): compute the clamped
    scale, rasterize, re-rasterize once at a reduced scale if the raster
    exceeds 6000×8000 (targets 3000×4000), then produce the QImage via the
    PNG round trip (safe path) or the raw buffer for channel counts
    1/3/4 (fast path), falling back to the PNG round trip otherwise.
    Any stage may raise. -/
def rasterBody (d : Doc) (pno : Nat) (dpi : Nat) (safe : Bool) : Except Unit QImage := do
  let scale : ℚ := min (max ((dpi : ℚ) / 72) (1 / 2)) 3
  let pix0 ← d.getPixmap pno scale
  let pix ← if 6000 < pix0.width ∨ 8000 < pix0.height then
      let shrink : ℚ := max ((pix0.width : ℚ) / 3000) ((pix0.height : ℚ) / 4000)
      d.getPixmap pno (scale / shrink)
    else pure pix0
  if safe then do
    let data ← pix.pngBytes
    d.fromDataPng data
  else if pix.n = 1 then
    d.rawImage pix.samples pix.width pix.height pix.stride QFmt.grayscale8
  else if pix.n = 3 then
    d.rawImage pix.samples pix.width pix.height pix.stride QFmt.rgb888
  else if pix.n = 4 then
    d.rawImage pix.samples pix.width pix.height pix.stride QFmt.rgba8888
  else do
    let data ← pix.pngBytes
    d.fromDataPng data

/-- `DocModel.render_page` (lines 94-120): absent for a closed document or
    an out-of-range index; otherwise serve from the cache, or run the
    pipeline, caching a success before returning it and turning any raise
    into the (uncached) placeholder tile. -/
def render_page (m : DocModelR) (pno : Int) (safe_png : Bool) :
    Option QImage × DocModelR :=
  match m.doc with
  | none => (none, m)
  | some d =>
    if pno < 0 ∨ (m.page_count : Int) ≤ pno then (none, m)
    else
      let key := page_key m pno safe_png
      let r := m.page_pix_cache.get key
      match r.1 with
      | some cached => (some cached, { m with page_pix_cache := r.2 })
      | none =>
        match rasterBody d pno.toNat m.dpi safe_png with
        | .ok img => (some img, { m with page_pix_cache := r.2.put key img })
        | .error _ => (some (placeholderTile pno), { m with page_pix_cache := r.2 })

/-- After `put k v` on a cache with positive capacity, `get k` finds `v`. -/
theorem put_get_same {α β : Type} [DecidableEq α] (c : LRUCache α β) (k : α) (v : β)
    (hmax : 0 < c.max) : ((c.put k v).get k).1 = some v := by
  rw [cacheGet_fst]
  unfold LRUCache.put
  rw [evictLoop_eq_drop]
  set f := c.d.filter fun p => decide (p.1 ≠ k) with hf
  have hm : (f ++ [(k, v)]).length - c.max ≤ f.length := by
    simp only [List.length_append, List.length_cons, List.length_nil]
    omega
  rw [List.drop_append_of_le_length hm]
  apply assocGet_append_last
  intro p hp
  have hpf : p ∈ f := List.Sublist.mem hp (List.drop_sublist _ _)
  have := (List.mem_filter.mp (hf ▸ hpf)).2
  simpa using this

/-- A missed `get` leaves the cache unchanged. -/
theorem get_miss_eq {α β : Type} [DecidableEq α] (c : LRUCache α β) (k : α)
    (h : (c.get k).1 = none) : (c.get k).2 = c := by
  rw [cacheGet_fst] at h
  unfold LRUCache.get
  rw [h]

/-- C6: `render_page` never raises: with no open document or a page index
    outside `[0, page_count)` it returns an absent result; for an in-range
    index on an open document it always returns an image; and when the
    rasterization pipeline raises (on a cache miss) that image is the
    fixed-size placeholder tile carrying a diagnostic naming the page. -/
theorem claim_C6 (m : DocModelR) (pno : Int) (safe : Bool) :
    (m.doc = none ∨ pno < 0 ∨ (m.page_count : Int) ≤ pno →
      (render_page m pno safe).1 = none)
    ∧ (∀ d, m.doc = some d → 0 ≤ pno → pno < (m.page_count : Int) →
        (render_page m pno safe).1.isSome = true)
    ∧ (∀ d, m.doc = some d → 0 ≤ pno → pno < (m.page_count : Int) →
        (m.page_pix_cache.get (page_key m pno safe)).1 = none →
        rasterBody d pno.toNat m.dpi safe = .error () →
        (render_page m pno safe).1 = some (placeholderTile pno)) := by
  refine ⟨?_, ?_, ?_⟩
  · intro hout
    unfold render_page
    rcases hdoc : m.doc with - | d
    · rfl
    · rcases hout with h | h
      · rw [hdoc] at h
        cases h
      · simp only
        rw [if_pos h]
  · intro d hdoc h0 hlt
    unfold render_page
    rw [hdoc]
    simp only
    rw [if_neg (by omega)]
    rcases hc : (m.page_pix_cache.get (page_key m pno safe)).1 with - | cached
    · cases hb : rasterBody d pno.toNat m.dpi safe with
      | error e => simp [hc, hb]
      | ok img => simp [hc, hb]
    · simp [hc]
  · intro d hdoc h0 hlt hmiss hfail
    unfold render_page
    rw [hdoc]
    simp only
    rw [if_neg (by omega)]
    simp [hmiss, hfail]

/-- C7: on a cache miss for an in-range page of an open document, a
    successful rasterization is stored under `(page, dpi, decode-path)`
    and returned (a follow-up `get` on that key finds it), while the
    failure branch leaves the cache exactly as it was — the placeholder is
    never cached, so the key stays absent and a later call re-runs the
    pipeline. -/
theorem claim_C7 (m : DocModelR) (d : Doc) (pno : Int) (safe : Bool)
    (hdoc : m.doc = some d) (h0 : 0 ≤ pno) (hlt : pno < (m.page_count : Int))
    (hmax : 0 < m.page_pix_cache.max)
    (hmiss : (m.page_pix_cache.get (page_key m pno safe)).1 = none) :
    (∀ img, rasterBody d pno.toNat m.dpi safe = .ok img →
      (render_page m pno safe).1 = some img
      ∧ (((render_page m pno safe).2.page_pix_cache).get (page_key m pno safe)).1
          = some img)
    ∧ (rasterBody d pno.toNat m.dpi safe = .error () →
      (render_page m pno safe).2.page_pix_cache = m.page_pix_cache
      ∧ (((render_page m pno safe).2.page_pix_cache).get (page_key m pno safe)).1
          = none) := by
  have hr2 : (m.page_pix_cache.get (page_key m pno safe)).2 = m.page_pix_cache :=
    get_miss_eq _ _ hmiss
  constructor
  · intro img hok
    unfold render_page
    rw [hdoc]
    simp only
    rw [if_neg (by omega)]
    simp only [hmiss, hok]
    refine ⟨by trivial, ?_⟩
    rw [hr2]
    exact put_get_same m.page_pix_cache (page_key m pno safe) img hmax
  · intro hfail
    unfold render_page
    rw [hdoc]
    simp only
    rw [if_neg (by omega)]
    simp only [hmiss, hfail]
    exact ⟨hr2, by rw [hr2]; exact hmiss⟩

/-- A one-page document whose every external call raises. -/
def docFail : Doc :=
  ⟨1, fun _ _ => .error (), fun _ => .error (), fun _ _ _ _ _ => .error ()⟩

/-- A one-page document whose pipeline succeeds with image id 7. -/
def docOk : Doc :=
  ⟨1, fun _ _ => .ok ⟨100, 100, 3, 300, [0], .ok [1]⟩,
   fun _ => .ok (QImage.ext 7), fun _ _ _ _ _ => .ok (QImage.ext 8)⟩

/-- C6 witness: a closed model yields absent; a failing pipeline yields
    the placeholder. -/
theorem claim_C6_witness :
    (render_page ⟨none, 1, 110, ⟨20, []⟩⟩ 0 true).1 = none
    ∧ (render_page ⟨some docFail, 1, 110, ⟨20, []⟩⟩ 0 true).1
        = some (placeholderTile 0) := by
  constructor
  · exact (claim_C6 ⟨none, 1, 110, ⟨20, []⟩⟩ 0 true).1 (Or.inl rfl)
  · exact (claim_C6 ⟨some docFail, 1, 110, ⟨20, []⟩⟩ 0 true).2.2 docFail rfl
      (by decide) (by decide) rfl rfl

/-- C7 witness: the successful render is returned and found in the cache
    afterwards. -/
theorem claim_C7_witness :
    (render_page ⟨some docOk, 1, 110, ⟨20, []⟩⟩ 0 true).1 = some (QImage.ext 7)
    ∧ (((render_page ⟨some docOk, 1, 110, ⟨20, []⟩⟩ 0 true).2.page_pix_cache).get
        (page_key ⟨some docOk, 1, 110, ⟨20, []⟩⟩ 0 true)).1 = some (QImage.ext 7) := by
  have h := (claim_C7 ⟨some docOk, 1, 110, ⟨20, []⟩⟩ docOk 0 true rfl (by decide)
      (by decide) (by decide) rfl).1 (QImage.ext 7) rfl
  exact h

/-! ## PdfView: render scheduler and visible-range rendering
    (src/hayashi.py lines 191-296) -/

/-- The `PdfView` state used by the scheduler and the visible-range
    renderer: the model, the decode-path flag, each `PageItem`'s
    `original_img` (lines 156, 201, 232-233), and the "render all"
    scheduler fields `_all_idx`, `_all_active` and whether `_all_timer`
    is armed (lines 204-207). -/
structure ViewSt where
  model : Option DocModelR
  safe_png : Bool
  items : List (Option QImage)
  all_idx : Nat
  all_active : Bool
  timer_active : Bool

/-- `PdfView.render_single_page_raw` (lines 262-267): `None` without a
    model, otherwise delegate to `DocModel.render_page`; the `except`
    branch is unreachable since `render_page` is total. -/
def render_single_page_raw (v : ViewSt) (pno : Int) : Option QImage × ViewSt :=
  match v.model with
  | none => (none, v)
  | some m =>
    let r := render_page m pno v.safe_png
    (r.1, { v with model := some r.2 })

/-- `PdfView.render_all_pages` (lines 274-281): no-op without a model or
    when already active; otherwise reset the cursor to page 0, set the
    active flag, and arm the recurring timer. -/
def render_all_pages (v : ViewSt) : ViewSt :=
  if v.model.isNone ∨ v.all_active then v
  else { v with all_idx := 0, all_active := true, timer_active := true }

/-- `PdfView._render_all_step` (lines 283-296): one timer tick.  Stop and
    go Idle when there is no model or the cursor has reached the page
    count; otherwise render the page under the cursor if it has no image
    yet, and advance the cursor regardless.  Also returns the render
    invocations made this tick, so the claims can count attempts. -/
def render_all_step (v : ViewSt) : ViewSt × List Nat :=
  match v.model with
  | none => ({ v with timer_active := false, all_active := false }, [])
  | some m =>
    if m.page_count ≤ v.all_idx then
      ({ v with timer_active := false, all_active := false }, [])
    else
      let pno := v.all_idx
      match v.items.getD pno none with
      | some _ => ({ v with all_idx := pno + 1 }, [])
      | none =>
        let r := render_single_page_raw v (Int.ofNat pno)
        match r.1 with
        | some img =>
          ({ r.2 with items := r.2.items.set pno (some img), all_idx := pno + 1 }, [pno])
        | none => ({ r.2 with all_idx := pno + 1 }, [pno])

/-- Deliver `n` timer ticks, collecting all render invocations. -/
def run_steps : Nat → ViewSt → ViewSt × List Nat
  | 0, v => (v, [])
  | n + 1, v =>
    let s := render_all_step v
    let rest := run_steps n s.1
    (rest.1, s.2 ++ rest.2)

/-- `render_page` only ever changes the cache on the model. -/
theorem render_page_model (m : DocModelR) (pno : Int) (s : Bool) :
    ∃ c, (render_page m pno s).2 = { m with page_pix_cache := c } := by
  obtain ⟨doc, pc, dpi, cache⟩ := m
  unfold render_page
  cases doc with
  | none => exact ⟨cache, rfl⟩
  | some d =>
    simp only
    by_cases hb : pno < 0 ∨ (pc : Int) ≤ pno
    · rw [if_pos hb]
      exact ⟨cache, rfl⟩
    · rw [if_neg hb]
      rcases hc : (cache.get (page_key ⟨some d, pc, dpi, cache⟩ pno s)).1 with - | cached
      · cases hr : rasterBody d pno.toNat dpi s with
        | error e => simp only [hc, hr]; exact ⟨_, rfl⟩
        | ok img => simp only [hc, hr]; exact ⟨_, rfl⟩
      · simp only [hc]
        exact ⟨_, rfl⟩

theorem render_page_isSome (m : DocModelR) (pno : Int) (s : Bool) (d : Doc)
    (hdoc : m.doc = some d) (h0 : 0 ≤ pno) (hlt : pno < (m.page_count : Int)) :
    (render_page m pno s).1.isSome = true := by
  unfold render_page
  rw [hdoc]
  simp only
  rw [if_neg (by omega)]
  rcases hc : (m.page_pix_cache.get (page_key m pno s)).1 with - | cached
  · cases hr : rasterBody d pno.toNat m.dpi s with
    | error e => simp [hc, hr]
    | ok img => simp [hc, hr]
  · simp [hc]

theorem getD_set_ne {α : Type} (l : List α) (i p : Nat) (x : α) (d : α) (h : p ≠ i) :
    (l.set i x).getD p d = l.getD p d := by
  simp [List.getD_eq_getElem?_getD, List.getElem?_set_ne (by omega : i ≠ p)]

/-- Invariants of delivering `k` ticks while the cursor stays within the
    page count: the cursor advances one per tick, the model keeps its
    document and page count, the item list keeps its length, the
    active/timer flags are untouched, and the render invocations are
    exactly the not-yet-rendered pages among the `k` pages processed, in
    order. -/
theorem run_steps_spec :
    ∀ (k : Nat) (v : ViewSt) (m : DocModelR),
      v.model = some m → v.items.length = m.page_count →
      v.all_idx + k ≤ m.page_count →
      (run_steps k v).1.all_idx = v.all_idx + k
      ∧ (∃ m2 : DocModelR, (run_steps k v).1.model = some m2
          ∧ m2.page_count = m.page_count ∧ m2.doc = m.doc)
      ∧ (run_steps k v).1.items.length = m.page_count
      ∧ (run_steps k v).1.all_active = v.all_active
      ∧ (run_steps k v).1.timer_active = v.timer_active
      ∧ (run_steps k v).2
          = (List.range' v.all_idx k).filter fun p => v.items.getD p none = none := by
  intro k
  induction k with
  | zero =>
    intro v m hm hlen hbound
    exact ⟨rfl, ⟨m, hm, rfl, rfl⟩, hlen, rfl, rfl, rfl⟩
  | succ k ih =>
    intro v m hm hlen hbound
    have hidx : v.all_idx < m.page_count := by omega
    have hstep : run_steps (k + 1) v
        = ((run_steps k (render_all_step v).1).1,
           (render_all_step v).2 ++ (run_steps k (render_all_step v).1).2) := rfl
    rcases hit : v.items.getD v.all_idx none with - | img0
    · -- page not yet rendered: one render invocation
      have hr : render_single_page_raw v (Int.ofNat v.all_idx)
          = ((render_page m (Int.ofNat v.all_idx) v.safe_png).1,
             { v with model := some (render_page m (Int.ofNat v.all_idx) v.safe_png).2 }) := by
        unfold render_single_page_raw
        rw [hm]
      obtain ⟨c, hc⟩ := render_page_model m (Int.ofNat v.all_idx) v.safe_png
      have hstepv : ∃ v2 : ViewSt,
          render_all_step v = (v2, [v.all_idx])
          ∧ v2.model = some (render_page m (Int.ofNat v.all_idx) v.safe_png).2
          ∧ v2.all_idx = v.all_idx + 1
          ∧ v2.all_active = v.all_active
          ∧ v2.timer_active = v.timer_active
          ∧ v2.items.length = v.items.length
          ∧ ∀ p, p ≠ v.all_idx → v2.items.getD p none = v.items.getD p none := by
        unfold render_all_step
        rw [hm]
        simp only
        rw [if_neg (by omega)]
        rw [hit, hr]
        rcases (render_page m (Int.ofNat v.all_idx) v.safe_png).1 with - | img
        · exact ⟨_, rfl, rfl, rfl, rfl, rfl, rfl, fun p hp => rfl⟩
        · refine ⟨_, rfl, rfl, rfl, rfl, rfl, by simp, fun p hp => ?_⟩
          exact getD_set_ne _ _ _ _ _ hp
      obtain ⟨v2, hv2, hv2m, hv2i, hv2a, hv2t, hv2l, hv2g⟩ := hstepv
      have hpc : (render_page m (Int.ofNat v.all_idx) v.safe_png).2.page_count
          = m.page_count := by rw [hc]
      have hdoceq : (render_page m (Int.ofNat v.all_idx) v.safe_png).2.doc = m.doc := by
        rw [hc]
      have hih := ih v2 (render_page m (Int.ofNat v.all_idx) v.safe_png).2 hv2m
        (by rw [hv2l, hlen, hpc]) (by rw [hv2i, hpc]; omega)
      rw [hstep, hv2]
      refine ⟨?_, ?_, ?_, ?_, ?_, ?_⟩
      · rw [hih.1, hv2i]; omega
      · obtain ⟨m2, h1, h2, h3⟩ := hih.2.1
        exact ⟨m2, h1, by rw [h2, hpc], by rw [h3, hdoceq]⟩
      · rw [hih.2.2.1, hpc]
      · rw [hih.2.2.2.1, hv2a]
      · rw [hih.2.2.2.2.1, hv2t]
      · rw [hih.2.2.2.2.2, hv2i]
        have hfilter : ((List.range' (v.all_idx + 1) k).filter
              fun p => v2.items.getD p none = none)
            = (List.range' (v.all_idx + 1) k).filter
              fun p => v.items.getD p none = none := by
          apply List.filter_congr
          intro p hp
          have : v.all_idx + 1 ≤ p := (List.mem_range'_1.mp hp).1
          rw [hv2g p (by omega)]
        rw [hfilter, List.range'_succ, List.filter_cons]
        simp only [List.getD_eq_getElem?_getD] at hit
        simp [hit]
    · -- page already rendered: no invocation
      have hstepv : render_all_step v = ({ v with all_idx := v.all_idx + 1 }, []) := by
        unfold render_all_step
        rw [hm]
        simp only
        rw [if_neg (by omega), hit]
      have hih := ih { v with all_idx := v.all_idx + 1 } m hm hlen (by simp; omega)
      rw [hstep, hstepv]
      refine ⟨?_, hih.2.1, hih.2.2.1, hih.2.2.2.1, hih.2.2.2.2.1, ?_⟩
      · rw [hih.1]; simp; omega
      · rw [hih.2.2.2.2.2]
        simp only
        rw [List.range'_succ, List.filter_cons]
        simp only [List.getD_eq_getElem?_getD] at hit
        simp [hit]

/-- Splitting a tick sequence. -/
theorem run_steps_append : ∀ (a b : Nat) (v : ViewSt),
    run_steps (a + b) v
      = ((run_steps b (run_steps a v).1).1,
         (run_steps a v).2 ++ (run_steps b (run_steps a v).1).2) := by
  intro a
  induction a with
  | zero => intro b v; simp [run_steps]
  | succ a ih =>
    intro b v
    have h1 : a + 1 + b = (a + b) + 1 := by omega
    rw [h1]
    show ((run_steps (a + b) (render_all_step v).1).1,
        (render_all_step v).2 ++ (run_steps (a + b) (render_all_step v).1).2) = _
    rw [ih b (render_all_step v).1]
    show _ = ((run_steps b (run_steps (a + 1) v).1).1,
        (run_steps (a + 1) v).2 ++ (run_steps b (run_steps (a + 1) v).1).2)
    have h2 : run_steps (a + 1) v
        = ((run_steps a (render_all_step v).1).1,
           (render_all_step v).2 ++ (run_steps a (render_all_step v).1).2) := rfl
    rw [h2]
    simp [List.append_assoc]

/-- The tick that finds the cursor at the page count stops the timer and
    clears the active flag (lines 284-288). -/
theorem render_all_step_stop (v : ViewSt) (m : DocModelR)
    (hm : v.model = some m) (hidx : m.page_count ≤ v.all_idx) :
    render_all_step v
      = ({ v with timer_active := false, all_active := false }, []) := by
  unfold render_all_step
  rw [hm]
  simp only
  rw [if_pos hidx]

/-- A one-page view over a failing document, scheduler idle. -/
def viewFail : ViewSt :=
  ⟨some ⟨some docFail, 1, 110, ⟨20, []⟩⟩, true, [none], 0, false, false⟩

/-- C3 counterexample: with P = 1 page, after `startAll()` and exactly
    P = 1 tick the scheduler is NOT back to Idle: the recurring timer is
    still armed and the active flag still set (the tick-driven exit fires
    only on the (P+1)-th tick, when the cursor has already reached the
    page count). -/
theorem claim_C3_counterexample :
    (run_steps 1 (render_all_pages viewFail)).1.timer_active = true
    ∧ (run_steps 1 (render_all_pages viewFail)).1.all_active = true := by
  constructor <;> rfl

/-- C3 (amended): after `startAll()` on a P-page document with the
    scheduler idle, delivering P+1 ticks drains it back to Idle: the first
    P ticks process pages 0..P-1 exactly once in order — the cursor
    advances by one per tick regardless of hit, miss or failure, and each
    not-yet-rendered page receives exactly one render invocation — and the
    (P+1)-th tick finds the cursor at P, stops the timer and clears the
    active flag. -/
theorem claim_C3_amended (v : ViewSt) (m : DocModelR) (P : Nat)
    (hm : v.model = some m) (hP : m.page_count = P) (hitems : v.items.length = P)
    (hact : v.all_active = false) :
    (run_steps (P + 1) (render_all_pages v)).1.timer_active = false
    ∧ (run_steps (P + 1) (render_all_pages v)).1.all_active = false
    ∧ (run_steps (P + 1) (render_all_pages v)).1.all_idx = P
    ∧ (run_steps (P + 1) (render_all_pages v)).2
        = (List.range' 0 P).filter (fun p => v.items.getD p none = none)
    ∧ (render_all_pages v).all_active = true
    ∧ (render_all_pages v).timer_active = true
    ∧ ∀ t, t ≤ P → (run_steps t (render_all_pages v)).1.all_idx = t := by
  have hstart : render_all_pages v
      = { v with all_idx := 0, all_active := true, timer_active := true } := by
    unfold render_all_pages
    rw [if_neg (by simp [hm, hact])]
  set v0 := render_all_pages v with hv0
  have hv0m : v0.model = some m := by rw [hstart]; exact hm
  have hv0l : v0.items.length = m.page_count := by rw [hstart, hP]; exact hitems
  have hv0i : v0.all_idx = 0 := by rw [hstart]
  have hspec := run_steps_spec P v0 m hv0m hv0l (by rw [hv0i]; omega)
  obtain ⟨hidx, ⟨m2, hm2, hm2c, -⟩, -, -, -, hlog⟩ := hspec
  set w := (run_steps P v0).1 with hw
  have hwstop : render_all_step w
      = ({ w with timer_active := false, all_active := false }, []) :=
    render_all_step_stop w m2 hm2 (by rw [hm2c, hP]; rw [hidx, hv0i]; omega)
  have hsplit := run_steps_append P 1 v0
  have hone : run_steps 1 w = ((render_all_step w).1, (render_all_step w).2 ++ []) := rfl
  rw [hwstop] at hone
  simp only at hone
  rw [hsplit, ← hw, hone]
  refine ⟨rfl, rfl, ?_, ?_, ?_, ?_, ?_⟩
  · show w.all_idx = P
    rw [hidx, hv0i]
    omega
  · simp only [List.append_nil]
    rw [hlog, hv0i]
    have : v0.items = v.items := by rw [hstart]
    rw [this]
  · rw [hstart]
  · rw [hstart]
  · intro t ht
    have hspect := run_steps_spec t v0 m hv0m hv0l (by rw [hv0i]; omega)
    rw [hspect.1, hv0i]
    omega

/-- C3 witness: the amended claim on the concrete one-page view; two ticks
    drain the scheduler. -/
theorem claim_C3_amended_witness :
    (run_steps 2 (render_all_pages viewFail)).1.timer_active = false
    ∧ (run_steps 2 (render_all_pages viewFail)).1.all_active = false := by
  have h := claim_C3_amended viewFail ⟨some docFail, 1, 110, ⟨20, []⟩⟩ 1 rfl rfl rfl rfl
  exact ⟨h.1, h.2.1⟩

/-! ### render_visible_lite (lines 248-260) -/

/-- `range(start, end+1)` over page indices, as produced by
    `_visible_range` (lines 236-246): `start` is never negative there, and
    the empty-view answer `(0, -1)` gives the empty range. -/
def visList (lo : Nat) (hi : Int) : List Nat :=
  List.range' lo (hi + 1 - lo).toNat

/-- The `for pno in range(start, end+1)` loop of `render_visible_lite`
    (lines 252-260): skip pages that already have an image; render the
    others, assigning the image if one was produced; `done` is incremented
    per attempt and the loop breaks once `done >= count`.  Besides the
    state it returns the pages rendered (assigned an image) and the pages
    attempted (passed to `render_single_page_raw`). -/
def rvlLoop (count : Nat) : List Nat → Nat → ViewSt → ViewSt × List Nat × List Nat
  | [], _, v => (v, [], [])
  | pno :: rest, done, v =>
    match v.items.getD pno none with
    | some _ => rvlLoop count rest done v
    | none =>
      let r := render_single_page_raw v (Int.ofNat pno)
      let s := match r.1 with
        | some img => ({ r.2 with items := r.2.items.set pno (some img) }, [pno])
        | none => (r.2, ([] : List Nat))
      if count ≤ done + 1 then (s.1, s.2, [pno])
      else
        let rr := rvlLoop count rest (done + 1) s.1
        (rr.1, s.2 ++ rr.2.1, pno :: rr.2.2)

/-- `PdfView.render_visible_lite` (lines 248-260), the visible range being
    supplied by the presentation collaborator `_visible_range`. -/
def render_visible_lite (v : ViewSt) (lo : Nat) (hi : Int) (count : Nat) :
    ViewSt × List Nat × List Nat :=
  match v.model with
  | none => (v, [], [])
  | some _ => rvlLoop count (visList lo hi) 0 v

theorem rvlLoop_spec (count : Nat) :
    ∀ (pnos : List Nat) (done : Nat) (v : ViewSt) (m : DocModelR),
      v.model = some m → pnos.Nodup →
      ((rvlLoop count pnos done v).2.2
          = (pnos.filter fun p => v.items.getD p none = none).take (max (count - done) 1))
      ∧ List.Sublist (rvlLoop count pnos done v).2.1 (rvlLoop count pnos done v).2.2
      ∧ ((pnos.filter fun p => v.items.getD p none = none) = [] →
          rvlLoop count pnos done v = (v, [], []))
      ∧ (∀ d, m.doc = some d → (∀ p ∈ pnos, p < m.page_count) →
          (rvlLoop count pnos done v).2.1 = (rvlLoop count pnos done v).2.2) := by
  intro pnos
  induction pnos with
  | nil =>
    intro done v m hm hnd
    exact ⟨by simp [rvlLoop], by simp [rvlLoop], fun _ => rfl, fun d hd hb => rfl⟩
  | cons pno rest ih =>
    intro done v m hm hnd
    have hnd2 : rest.Nodup := (List.nodup_cons.mp hnd).2
    have hpno : pno ∉ rest := (List.nodup_cons.mp hnd).1
    rcases hit : v.items.getD pno none with - | img0
    · -- page pno lacks an image: it is attempted
      have hr : render_single_page_raw v (Int.ofNat pno)
          = ((render_page m (Int.ofNat pno) v.safe_png).1,
             { v with model := some (render_page m (Int.ofNat pno) v.safe_png).2 }) := by
        unfold render_single_page_raw
        rw [hm]
      obtain ⟨c, hc⟩ := render_page_model m (Int.ofNat pno) v.safe_png
      have hit2 : v.items[pno]?.getD none = none := by
        rw [← List.getD_eq_getElem?_getD]
        exact hit
      have hfilterc : ((pno :: rest).filter fun p => v.items.getD p none = none)
          = pno :: (rest.filter fun p => v.items.getD p none = none) := by
        rw [List.filter_cons]
        simp [hit2]
      rcases hres : (render_page m (Int.ofNat pno) v.safe_png).1 with - | img
      · -- render produced nothing (closed document): attempted, not rendered
        have hbody : rvlLoop count (pno :: rest) done v
            = (if count ≤ done + 1 then
                ({ v with model := some (render_page m (Int.ofNat pno) v.safe_png).2 },
                 ([] : List Nat), [pno])
               else
                 let rr := rvlLoop count rest (done + 1)
                   { v with model := some (render_page m (Int.ofNat pno) v.safe_png).2 }
                 (rr.1, [] ++ rr.2.1, pno :: rr.2.2)) := by
          simp only [rvlLoop, hit, hr, hres]
        have hv1m : ({ v with
            model := some (render_page m (Int.ofNat pno) v.safe_png).2 } : ViewSt).model
              = some (render_page m (Int.ofNat pno) v.safe_png).2 := rfl
        by_cases hcnt : count ≤ done + 1
        · rw [hbody, if_pos hcnt]
          have hmax1 : max (count - done) 1 = 1 := by omega
          refine ⟨?_, by simp, ?_, ?_⟩
          · rw [hfilterc, hmax1]
            simp
          · intro habs
            rw [hfilterc] at habs
            cases habs
          · intro d hd hb
            have hsome := render_page_isSome m (Int.ofNat pno) v.safe_png d hd
              (Int.ofNat_nonneg pno)
              (Int.ofNat_lt.mpr (hb pno (List.mem_cons_self _ _)))
            rw [hres] at hsome
            simp at hsome
        · rw [hbody, if_neg hcnt]
          simp only
          have hih := ih (done + 1)
            { v with model := some (render_page m (Int.ofNat pno) v.safe_png).2 }
            (render_page m (Int.ofNat pno) v.safe_png).2 hv1m hnd2
          have hfiltereq : (rest.filter fun p =>
                (({ v with model := some (render_page m (Int.ofNat pno) v.safe_png).2 }
                  : ViewSt).items.getD p none) = none)
              = rest.filter fun p => v.items.getD p none = none := rfl
          have hmax : max (count - done) 1 = (max (count - (done + 1)) 1) + 1 := by omega
          refine ⟨?_, ?_, ?_, ?_⟩
          · rw [hih.1, hfiltereq, hfilterc, hmax]
            rw [List.take_succ_cons]
          · simp only [List.nil_append]
            exact List.Sublist.trans hih.2.1 (List.sublist_cons_self _ _)
          · intro habs
            rw [hfilterc] at habs
            cases habs
          · intro d hd hb
            have hsome := render_page_isSome m (Int.ofNat pno) v.safe_png d hd
              (Int.ofNat_nonneg pno)
              (Int.ofNat_lt.mpr (hb pno (List.mem_cons_self _ _)))
            rw [hres] at hsome
            simp at hsome
      · -- render produced an image: attempted and rendered
        have hbody : rvlLoop count (pno :: rest) done v
            = (if count ≤ done + 1 then
                ({ v with
                   model := some (render_page m (Int.ofNat pno) v.safe_png).2,
                   items := v.items.set pno (some img) },
                 [pno], [pno])
               else
                 let rr := rvlLoop count rest (done + 1)
                   { v with
                     model := some (render_page m (Int.ofNat pno) v.safe_png).2,
                     items := v.items.set pno (some img) }
                 (rr.1, [pno] ++ rr.2.1, pno :: rr.2.2)) := by
          simp only [rvlLoop, hit, hr, hres]
        have hv1m : ({ v with
            model := some (render_page m (Int.ofNat pno) v.safe_png).2,
            items := v.items.set pno (some img) } : ViewSt).model
              = some (render_page m (Int.ofNat pno) v.safe_png).2 := rfl
        by_cases hcnt : count ≤ done + 1
        · rw [hbody, if_pos hcnt]
          have hmax1 : max (count - done) 1 = 1 := by omega
          refine ⟨?_, by simp, ?_, ?_⟩
          · rw [hfilterc, hmax1]
            simp
          · intro habs
            rw [hfilterc] at habs
            cases habs
          · intro d hd hb
            rfl
        · rw [hbody, if_neg hcnt]
          simp only
          have hih := ih (done + 1)
            { v with
              model := some (render_page m (Int.ofNat pno) v.safe_png).2,
              items := v.items.set pno (some img) }
            (render_page m (Int.ofNat pno) v.safe_png).2 hv1m hnd2
          have hfiltereq : (rest.filter fun p =>
                (({ v with
                    model := some (render_page m (Int.ofNat pno) v.safe_png).2,
                    items := v.items.set pno (some img) } : ViewSt).items.getD p none) = none)
              = rest.filter fun p => v.items.getD p none = none := by
            apply List.filter_congr
            intro p hp
            have hne : p ≠ pno := fun hcp => hpno (hcp ▸ hp)
            simp only
            rw [getD_set_ne _ _ _ _ _ hne]
          have hmax : max (count - done) 1 = (max (count - (done + 1)) 1) + 1 := by omega
          refine ⟨?_, ?_, ?_, ?_⟩
          · rw [hih.1, hfiltereq, hfilterc, hmax]
            rw [List.take_succ_cons]
          · simp only [List.cons_append, List.nil_append]
            exact List.cons_sublist_cons.mpr hih.2.1
          · intro habs
            rw [hfilterc] at habs
            cases habs
          · intro d hd hb
            have hdoc1 : (render_page m (Int.ofNat pno) v.safe_png).2.doc = some d := by
              rw [hc]
              exact hd
            have hpc1 : (render_page m (Int.ofNat pno) v.safe_png).2.page_count
                = m.page_count := by rw [hc]
            have heq := hih.2.2.2 d hdoc1
              (fun p hp => by rw [hpc1]; exact hb p (List.mem_cons_of_mem _ hp))
            simp only [List.cons_append, List.nil_append]
            rw [heq]
    · -- page pno already has an image: skipped
      have hit2 : v.items[pno]?.getD none = some img0 := by
        rw [← List.getD_eq_getElem?_getD]
        exact hit
      have hfilterc : ((pno :: rest).filter fun p => v.items.getD p none = none)
          = rest.filter fun p => v.items.getD p none = none := by
        rw [List.filter_cons]
        simp [hit2]
      have hloop : rvlLoop count (pno :: rest) done v = rvlLoop count rest done v := by
        simp only [rvlLoop, hit]
      have hih := ih done v m hm hnd2
      rw [hloop, hfilterc]
      exact ⟨hih.1, hih.2.1, hih.2.2.1,
        fun d hd hb => hih.2.2.2 d hd fun p hp => hb p (List.mem_cons_of_mem _ hp)⟩

/-- C10 counterexample: over a model whose document is closed, the loop
    breaks after `count` attempts with zero pages rendered while the range
    still holds an unattempted un-rendered page; and with `count = 0` one
    page is still rendered, because `done` is checked only after being
    incremented. -/
def viewClosed : ViewSt :=
  ⟨some ⟨none, 3, 110, ⟨20, []⟩⟩, true, [none, none, none], 0, false, false⟩

/-- A one-page view over a working document, not yet rendered. -/
def viewOk0 : ViewSt :=
  ⟨some ⟨some docOk, 1, 110, ⟨20, []⟩⟩, true, [none], 0, false, false⟩

/-- C10 counterexample (see `viewClosed`): `render_visible_lite` with
    `count = 2` over visible range `[0,2]` renders nothing, attempts only
    pages 0 and 1, and stops with page 2 still lacking an image — it
    stopped early although fewer than `count` pages were rendered and the
    range was not exhausted; and with `count = 0` it still renders one
    page. -/
theorem claim_C10_counterexample :
    ((render_visible_lite viewClosed 0 2 2).2.1 = []
      ∧ (render_visible_lite viewClosed 0 2 2).2.2 = [0, 1]
      ∧ (render_visible_lite viewClosed 0 2 2).1.items.getD 2 none = none)
    ∧ (render_visible_lite viewOk0 0 0 0).2.1 = [0] := by
  refine ⟨⟨?_, ?_, ?_⟩, ?_⟩ <;> rfl

/-- C10 (amended): `render_visible_lite` walks the visible range in order
    and attempts exactly the first `max(count, 1)` pages that lack an
    image (`done` counts attempts, successful or not, and is tested after
    incrementing, so `count = 0` still attempts one page); the rendered
    pages are a subsequence of the attempted ones — all of them whenever
    the document is open and the range lies within the page count, since
    rendering then always produces an image — and the call is a no-op when
    every visible page already has an image. -/
theorem claim_C10_amended (v : ViewSt) (m : DocModelR) (lo : Nat) (hi : Int)
    (count : Nat) (hm : v.model = some m) :
    ((render_visible_lite v lo hi count).2.2
      = ((visList lo hi).filter fun p => v.items.getD p none = none).take (max count 1))
    ∧ List.Sublist (render_visible_lite v lo hi count).2.1
        (render_visible_lite v lo hi count).2.2
    ∧ (((visList lo hi).filter fun p => v.items.getD p none = none) = [] →
        render_visible_lite v lo hi count = (v, [], []))
    ∧ (∀ d, m.doc = some d → (∀ p ∈ visList lo hi, p < m.page_count) →
        (render_visible_lite v lo hi count).2.1
          = (render_visible_lite v lo hi count).2.2) := by
  have hnd : (visList lo hi).Nodup := List.nodup_range' _ _
  have hrv : render_visible_lite v lo hi count = rvlLoop count (visList lo hi) 0 v := by
    unfold render_visible_lite
    rw [hm]
  have h := rvlLoop_spec count (visList lo hi) 0 v m hm hnd
  rw [hrv]
  exact ⟨h.1, h.2.1, h.2.2.1, h.2.2.2⟩

/-- C10 witness: the amended statement on the concrete one-page view. -/
theorem claim_C10_amended_witness :
    (render_visible_lite viewOk0 0 0 2).2.2 = [0] := by
  rw [(claim_C10_amended viewOk0 ⟨some docOk, 1, 110, ⟨20, []⟩⟩ 0 0 2 rfl).1]
  rfl

/-- C5 witness: on a one-page document with one embedded image, the single
    registry entry is id 1, owned by page 0, with unknown bbox. -/
theorem claim_C5_witness :
    (runBuild (ExtractInput.simple [⟨['a'], [5]⟩])).figures.map Prod.fst
      = List.range' 1 (runBuild (ExtractInput.simple [⟨['a'], [5]⟩])).figures.length
    ∧ figOwned (ExtractInput.simple [⟨['a'], [5]⟩]) (1, ⟨0, 5, none⟩) := by
  refine ⟨(claim_C5 (ExtractInput.simple [⟨['a'], [5]⟩])).1, ?_⟩
  exact (claim_C5 (ExtractInput.simple [⟨['a'], [5]⟩])).2 (1, ⟨0, 5, none⟩) (by decide)
